import Mathlib

/-!
Verification model of `webwatch.py` (vinaysrivatsan/webpage-check).

The file shallowly embeds the pure logic of the script: the per-target
change-detection state machine (`processKeyword`, `processHash`), the alert
cooldown gate (`should_alert_now`), the bounded diff (`make_diff`, including a
faithful model of CPython's `difflib.unified_diff`), the JSON state
serialization used by `save_json`/`load_json`, and the run orchestration of
`main`.  Machine-external effects (HTTP fetch, HTML parsing, the wall clock,
`random.shuffle`) are passed in as explicit parameters or oracles.
-/

set_option maxHeartbeats 1000000
set_option maxRecDepth 40000

namespace Webwatch

/-! ## Tunables (webwatch.py lines 17-26)

`ALERT_COOLDOWN_S` is a module-level tunable (0 as shipped, with a comment
suggesting `60*30`); the model passes the cooldown value explicitly so the
theorems cover every setting of it.  Likewise the wall clock `time.time()`
is passed as an explicit `now`. -/

def MAX_DIFF_LINES : Nat := 40

def MAX_TEXT_CHARS_STORED : Nat := 50000

/-- `clamp_text` (line 82): `s[:MAX_TEXT_CHARS_STORED]`, i.e. the first
`MAX_TEXT_CHARS_STORED` code points of `s`. -/
def clamp_text (s : String) : String := s.take MAX_TEXT_CHARS_STORED

/-- Does `s` start with `pat`? -/
def prefixAt : List Char → List Char → Bool
  | [], _ => true
  | _ :: _, [] => false
  | p :: ps, c :: cs => p == c && prefixAt ps cs

/-- Does the sequence contain `pat` as a contiguous subsequence? -/
def containsSeq (pat : List Char) : List Char → Bool
  | [] => prefixAt pat []
  | c :: cs => prefixAt pat (c :: cs) || containsSeq pat cs

/-- Python's `kw in text` on strings: substring containment on the sequences
of code points (the empty string is contained in everything). -/
def pyIn (kw text : String) : Bool := containsSeq kw.toList text.toList

/-! ## SHA-256 (`hashlib.sha256(s.encode("utf-8")).hexdigest()`, line 78)

A direct executable model of FIPS 180-4 SHA-256 over the UTF-8 bytes of the
input, producing the lowercase hex digest, as `sha256` in the script does. -/

/-- UTF-8 encoding of one unicode scalar value. -/
def utf8EncChar (n : Nat) : List Nat :=
  if n < 0x80 then [n]
  else if n < 0x800 then [0xC0 + n / 0x40, 0x80 + n % 0x40]
  else if n < 0x10000 then
    [0xE0 + n / 0x1000, 0x80 + n / 0x40 % 0x40, 0x80 + n % 0x40]
  else
    [0xF0 + n / 0x40000, 0x80 + n / 0x1000 % 0x40, 0x80 + n / 0x40 % 0x40,
     0x80 + n % 0x40]

def utf8Bytes : List Char → List Nat
  | [] => []
  | c :: cs => utf8EncChar c.toNat ++ utf8Bytes cs

/-- Truncate to a 32-bit word. -/
def w32 (n : Nat) : Nat := n % 4294967296

/-- Right-rotate a 32-bit word by `k` (for `x < 2^32`, `k ≤ 32`). -/
def rotr (k x : Nat) : Nat := x / 2 ^ k + x % 2 ^ k * 2 ^ (32 - k)

def bsig0 (x : Nat) : Nat := rotr 2 x ^^^ rotr 13 x ^^^ rotr 22 x
def bsig1 (x : Nat) : Nat := rotr 6 x ^^^ rotr 11 x ^^^ rotr 25 x
def ssig0 (x : Nat) : Nat := rotr 7 x ^^^ rotr 18 x ^^^ x / 2 ^ 3
def ssig1 (x : Nat) : Nat := rotr 17 x ^^^ rotr 19 x ^^^ x / 2 ^ 10
def chF (x y z : Nat) : Nat := (x &&& y) ^^^ ((x ^^^ 0xffffffff) &&& z)
def majF (x y z : Nat) : Nat := (x &&& y) ^^^ (x &&& z) ^^^ (y &&& z)

def shaK : Array Nat := #[
  1116352408, 1899447441, 3049323471, 3921009573, 961987163, 1508970993,
  2453635748, 2870763221, 3624381080, 310598401, 607225278, 1426881987,
  1925078388, 2162078206, 2614888103, 3248222580, 3835390401, 4022224774,
  264347078, 604807628, 770255983, 1249150122, 1555081692, 1996064986,
  2554220882, 2821834349, 2952996808, 3210313671, 3336571891, 3584528711,
  113926993, 338241895, 666307205, 773529912, 1294757372, 1396182291,
  1695183700, 1986661051, 2177026350, 2456956037, 2730485921, 2820302411,
  3259730800, 3345764771, 3516065817, 3600352804, 4094571909, 275423344,
  430227734, 506948616, 659060556, 883997877, 958139571, 1322822218,
  1537002063, 1747873779, 1955562222, 2024104815, 2227730452, 2361852424,
  2428436474, 2756734187, 3204031479, 3329325298]

/-- Big-endian 8-byte encoding of the bit length. -/
def be64 (n : Nat) : List Nat :=
  [n / 2 ^ 56 % 256, n / 2 ^ 48 % 256, n / 2 ^ 40 % 256, n / 2 ^ 32 % 256,
   n / 2 ^ 24 % 256, n / 2 ^ 16 % 256, n / 2 ^ 8 % 256, n % 256]

/-- SHA-256 padding: append `0x80`, zero bytes to 56 mod 64, then the
64-bit big-endian bit length. -/
def shaPad (msg : List Nat) : List Nat :=
  let len := msg.length
  msg ++ [0x80] ++ List.replicate ((119 - len % 64) % 64) 0 ++ be64 (8 * len)

/-- Group bytes into big-endian 32-bit words. -/
def beWords : List Nat → List Nat
  | b0 :: b1 :: b2 :: b3 :: rest => (((b0 * 256 + b1) * 256 + b2) * 256 + b3) :: beWords rest
  | _ => []

/-- Split a padded byte string into 64-byte blocks of 16 words each.  The
structural fuel (one unit per block, each iteration dropping 64 bytes of a
non-empty list) keeps the definition kernel-reducible; `bytes.length + 1`
always suffices. -/
def shaBlocksF : Nat → List Nat → List (List Nat)
  | 0, _ => []
  | fuel + 1, bytes =>
    if bytes = [] then []
    else beWords (bytes.take 64) :: shaBlocksF fuel (bytes.drop 64)

def shaBlocks (bytes : List Nat) : List (List Nat) :=
  shaBlocksF (bytes.length + 1) bytes

/-- Extend the 16-word block to the 64-word message schedule. -/
def schedGo (w : Array Nat) : Nat → Array Nat
  | 0 => w
  | c + 1 =>
    schedGo (w.push (w32 (ssig1 (w.getD (w.size - 2) 0) + w.getD (w.size - 7) 0 +
      ssig0 (w.getD (w.size - 15) 0) + w.getD (w.size - 16) 0))) c

structure Hash8 where
  a : Nat
  b : Nat
  c : Nat
  d : Nat
  e : Nat
  f : Nat
  g : Nat
  h : Nat

def roundsGo (W : Array Nat) : Nat → Nat → Hash8 → Hash8
  | _, 0, s => s
  | t, fuel + 1, s =>
    let T1 := w32 (s.h + bsig1 s.e + chF s.e s.f s.g + shaK.getD t 0 + W.getD t 0)
    let T2 := w32 (bsig0 s.a + majF s.a s.b s.c)
    roundsGo W (t + 1) fuel
      ⟨w32 (T1 + T2), s.a, s.b, s.c, w32 (s.d + T1), s.e, s.f, s.g⟩

def processBlock (h : Hash8) (block : List Nat) : Hash8 :=
  let W := schedGo block.toArray 48
  let s := roundsGo W 0 64 h
  ⟨w32 (h.a + s.a), w32 (h.b + s.b), w32 (h.c + s.c), w32 (h.d + s.d),
   w32 (h.e + s.e), w32 (h.f + s.f), w32 (h.g + s.g), w32 (h.h + s.h)⟩

def shaH0 : Hash8 :=
  ⟨1779033703, 3144134277, 1013904242, 2773480762,
   1359893119, 2600822924, 528734635, 1541459225⟩

def hexDigitChar (n : Nat) : Char :=
  match n with
  | 0 => '0' | 1 => '1' | 2 => '2' | 3 => '3' | 4 => '4'
  | 5 => '5' | 6 => '6' | 7 => '7' | 8 => '8' | 9 => '9'
  | 10 => 'a' | 11 => 'b' | 12 => 'c' | 13 => 'd' | 14 => 'e' | _ => 'f'

def hex8 (w : Nat) : List Char :=
  [hexDigitChar (w / 16 ^ 7 % 16), hexDigitChar (w / 16 ^ 6 % 16),
   hexDigitChar (w / 16 ^ 5 % 16), hexDigitChar (w / 16 ^ 4 % 16),
   hexDigitChar (w / 16 ^ 3 % 16), hexDigitChar (w / 16 ^ 2 % 16),
   hexDigitChar (w / 16 % 16), hexDigitChar (w % 16)]

/-- `sha256` (line 78): lowercase hex SHA-256 digest of the UTF-8 bytes. -/
def sha256 (s : String) : String :=
  let h := (shaBlocks (shaPad (utf8Bytes s.toList))).foldl processBlock shaH0
  String.mk (hex8 h.a ++ hex8 h.b ++ hex8 h.c ++ hex8 h.d ++ hex8 h.e ++
    hex8 h.f ++ hex8 h.g ++ hex8 h.h)

/-! ## difflib model

`make_diff` (lines 86-107) calls
`difflib.unified_diff(old_lines, new_lines, fromfile="before", tofile="after",
lineterm="")`.  Below is a faithful executable model of CPython's
`difflib.SequenceMatcher(None, a, b)` (so `isjunk=None`: `bjunk` is empty and
the junk-extension loops of `find_longest_match` never fire; `autojunk=True`:
elements of `b` occurring more than `len(b)//100 + 1` times are dropped from
`b2j` when `len(b) >= 200`) together with `get_grouped_opcodes(3)` and the
`unified_diff` line formatting. -/

/-- Decimal digit character (`'%d'` formatting). -/
def digitChar10 (n : Nat) : Char :=
  match n with
  | 0 => '0' | 1 => '1' | 2 => '2' | 3 => '3' | 4 => '4'
  | 5 => '5' | 6 => '6' | 7 => '7' | 8 => '8' | _ => '9'

/-- Decimal digits of `n`, most significant first, with structural fuel
(`n / 10` strictly decreases, so `n + 1` units always suffice and the
definition stays kernel-reducible). -/
def natDigsF : Nat → Nat → List Char
  | 0, _ => []
  | fuel + 1, n =>
    if n < 10 then [digitChar10 n]
    else natDigsF fuel (n / 10) ++ [digitChar10 (n % 10)]

def natDigs (n : Nat) : List Char := natDigsF (n + 1) n

/-- `str(n)` for a natural number. -/
def natStr (n : Nat) : String := String.mk (natDigs n)

/-- Lookup in an insertion-ordered association list, with a default. -/
def lookupD (m : List (Nat × Nat)) (key : Nat) : Nat :=
  match m with
  | [] => 0
  | (k, v) :: rest => if k = key then v else lookupD rest key

/-- `d[key] = v` on an insertion-ordered association list. -/
def setA (m : List (Nat × Nat)) (key v : Nat) : List (Nat × Nat) :=
  match m with
  | [] => [(key, v)]
  | (k, w) :: rest => if k = key then (k, v) :: rest else (k, w) :: setA rest key v

/-- `b2j.setdefault(elt, []).append(i)` over all of `b`, preserving dict
insertion order. -/
def b2jAdd (m : List (String × List Nat)) (s : String) (i : Nat) :
    List (String × List Nat) :=
  match m with
  | [] => [(s, [i])]
  | (k, v) :: rest => if k = s then (k, v ++ [i]) :: rest else (k, v) :: b2jAdd rest s i

def mkB2jGo (m : List (String × List Nat)) (i : Nat) : List String → List (String × List Nat)
  | [] => m
  | s :: rest => mkB2jGo (b2jAdd m s i) (i + 1) rest

/-- The autojunk purge of `__chain_b`: for `len(b) >= 200`, drop popular
elements (appearing more than `len(b)//100 + 1` times). -/
def purgePopular (m : List (String × List Nat)) (n : Nat) : List (String × List Nat) :=
  if 200 ≤ n then m.filter (fun p => decide (p.2.length ≤ n / 100 + 1)) else m

def mkB2j (b : List String) : List (String × List Nat) :=
  purgePopular (mkB2jGo [] 0 b) b.length

def b2jGet (m : List (String × List Nat)) (s : String) : List Nat :=
  match m with
  | [] => []
  | (k, v) :: rest => if k = s then v else b2jGet rest s

/-- The `for j in b2j.get(a[i], nothing)` loop's `continue`/`break` filter:
skip `j < blo`, stop at the first `j >= bhi`. -/
def seqJs (blo bhi : Nat) : List Nat → List Nat
  | [] => []
  | j :: js =>
    if j < blo then seqJs blo bhi js
    else if bhi ≤ j then []
    else j :: seqJs blo bhi js

/-- Inner loop of `find_longest_match` for one `i`: thread `newj2len` and the
running best `(besti, bestj, bestsize)`; `k = j2len.get(j-1, 0) + 1` reads the
previous row (at `j = 0` Python looks up the absent key `-1`). -/
def jloop (j2len : List (Nat × Nat)) (i : Nat) :
    List Nat → List (Nat × Nat) → Nat → Nat → Nat → List (Nat × Nat) × Nat × Nat × Nat
  | [], newj2len, besti, bestj, bestsize => (newj2len, besti, bestj, bestsize)
  | j :: js, newj2len, besti, bestj, bestsize =>
    let k := (if j = 0 then 0 else lookupD j2len (j - 1)) + 1
    let newj2len' := setA newj2len j k
    if bestsize < k then jloop j2len i js newj2len' (i + 1 - k) (j + 1 - k) k
    else jloop j2len i js newj2len' besti bestj bestsize

/-- Outer loop of `find_longest_match` over `i in range(alo, ahi)`. -/
def iloop (a : Array String) (b2j : List (String × List Nat)) (blo bhi : Nat) :
    List Nat → List (Nat × Nat) → Nat → Nat → Nat → Nat × Nat × Nat
  | [], _, besti, bestj, bestsize => (besti, bestj, bestsize)
  | i :: is, j2len, besti, bestj, bestsize =>
    let r := jloop j2len i (seqJs blo bhi (b2jGet b2j (a.getD i ""))) [] besti bestj bestsize
    iloop a b2j blo bhi is r.1 r.2.1 r.2.2.1 r.2.2.2

/-- `while besti > alo and bestj > blo and a[besti-1] == b[bestj-1]` (the
non-junk left extension; `bjunk` is empty with `isjunk=None`).  Each step
decrements `besti` past `alo`, so fuel `besti` is exactly enough; structural
fuel keeps the loop kernel-reducible. -/
def extLeftF (a b : Array String) (alo blo : Nat) :
    Nat → Nat → Nat → Nat → Nat × Nat × Nat
  | 0, besti, bestj, bestsize => (besti, bestj, bestsize)
  | fuel + 1, besti, bestj, bestsize =>
    if alo < besti ∧ blo < bestj ∧ a.getD (besti - 1) "" = b.getD (bestj - 1) "" then
      extLeftF a b alo blo fuel (besti - 1) (bestj - 1) (bestsize + 1)
    else (besti, bestj, bestsize)

def extLeft (a b : Array String) (alo blo besti bestj bestsize : Nat) : Nat × Nat × Nat :=
  extLeftF a b alo blo besti besti bestj bestsize

/-- `while besti+bestsize < ahi and bestj+bestsize < bhi and
a[besti+bestsize] == b[bestj+bestsize]`.  Each step needs
`besti + bestsize < ahi` and grows `bestsize`, so fuel
`ahi - (besti + bestsize)` is exactly enough. -/
def extRightF (a b : Array String) (ahi bhi : Nat) :
    Nat → Nat → Nat → Nat → Nat × Nat × Nat
  | 0, besti, bestj, bestsize => (besti, bestj, bestsize)
  | fuel + 1, besti, bestj, bestsize =>
    if besti + bestsize < ahi ∧ bestj + bestsize < bhi ∧
        a.getD (besti + bestsize) "" = b.getD (bestj + bestsize) "" then
      extRightF a b ahi bhi fuel besti bestj (bestsize + 1)
    else (besti, bestj, bestsize)

def extRight (a b : Array String) (ahi bhi besti bestj bestsize : Nat) : Nat × Nat × Nat :=
  extRightF a b ahi bhi (ahi - (besti + bestsize)) besti bestj bestsize

/-- `SequenceMatcher.find_longest_match(alo, ahi, blo, bhi)`. -/
def findLongestMatch (a b : Array String) (b2j : List (String × List Nat))
    (alo ahi blo bhi : Nat) : Nat × Nat × Nat :=
  let r₀ := iloop a b2j blo bhi (List.range' alo (ahi - alo)) [] alo blo 0
  let r₁ := extLeft a b alo blo r₀.1 r₀.2.1 r₀.2.2
  extRight a b ahi bhi r₁.1 r₁.2.1 r₁.2.2

/-- The window invariant of the running best match: a zero-size best still sits
at `(alo, blo)`, and a positive one lies inside the `[alo, ahi) × [blo, bhi)`
window. -/
def MatchInv (alo ahi blo bhi besti bestj bestsize : Nat) : Prop :=
  (bestsize = 0 → besti = alo ∧ bestj = blo) ∧
  (bestsize ≠ 0 →
    alo ≤ besti ∧ besti + bestsize ≤ ahi ∧ blo ≤ bestj ∧ bestj + bestsize ≤ bhi)

theorem lookupD_mem : ∀ (m : List (Nat × Nat)) (key : Nat),
    lookupD m key = 0 ∨ (key, lookupD m key) ∈ m := by
  intro m
  induction m with
  | nil => intro key; exact Or.inl rfl
  | cons q rest ih =>
    intro key
    obtain ⟨k, v⟩ := q
    simp only [lookupD]
    by_cases hk : k = key
    · subst hk
      simp
    · simp only [hk, if_false]
      rcases ih key with h | h
      · exact Or.inl h
      · exact Or.inr (List.mem_cons_of_mem _ h)

theorem setA_forall {P : Nat × Nat → Prop} (key v : Nat) (hv : P (key, v)) :
    ∀ (m : List (Nat × Nat)), (∀ p ∈ m, P p) → ∀ p ∈ setA m key v, P p := by
  intro m
  induction m with
  | nil =>
    intro _ p hp
    simp only [setA, List.mem_singleton] at hp
    exact hp ▸ hv
  | cons q rest ih =>
    intro hm p hp
    obtain ⟨k, w⟩ := q
    simp only [setA] at hp
    by_cases hk : k = key
    · rw [if_pos hk] at hp
      rcases List.mem_cons.mp hp with rfl | h
      · subst hk; exact hv
      · exact hm _ (List.mem_cons_of_mem _ h)
    · rw [if_neg hk] at hp
      rcases List.mem_cons.mp hp with rfl | h
      · exact hm _ (List.mem_cons_self _ _)
      · exact ih (fun q hq => hm q (List.mem_cons_of_mem _ hq)) p h

theorem seqJs_mem (blo bhi : Nat) (l : List Nat) :
    ∀ j ∈ seqJs blo bhi l, blo ≤ j ∧ j < bhi := by
  induction l with
  | nil => simp [seqJs]
  | cons x xs ih =>
    intro j hj
    simp only [seqJs] at hj
    split at hj
    · exact ih j hj
    · split at hj
      · simp at hj
      · rcases List.mem_cons.mp hj with h | h
        · subst h; omega
        · exact ih j h

/-- Invariant preservation through `jloop`:  `j2len` holds run lengths of
matches ending at row `i - 1`, `newj2len` those ending at row `i`. -/
theorem jloop_inv (alo ahi blo bhi i : Nat) (hi₁ : alo ≤ i) (hi₂ : i < ahi) :
    ∀ (js : List Nat) (j2len newj2len : List (Nat × Nat)) (besti bestj bestsize : Nat),
      (∀ j ∈ js, blo ≤ j ∧ j < bhi) →
      (∀ p ∈ j2len, p.2 + blo ≤ p.1 + 1 ∧ p.2 + alo ≤ i) →
      (∀ p ∈ newj2len, p.2 + blo ≤ p.1 + 1 ∧ p.2 + alo ≤ i + 1) →
      MatchInv alo ahi blo bhi besti bestj bestsize →
      (∀ p ∈ (jloop j2len i js newj2len besti bestj bestsize).1,
          p.2 + blo ≤ p.1 + 1 ∧ p.2 + alo ≤ i + 1) ∧
        MatchInv alo ahi blo bhi
          (jloop j2len i js newj2len besti bestj bestsize).2.1
          (jloop j2len i js newj2len besti bestj bestsize).2.2.1
          (jloop j2len i js newj2len besti bestj bestsize).2.2.2 := by
  intro js
  induction js with
  | nil =>
    intro j2len newj2len besti bestj bestsize _ _ hnew hinv
    exact ⟨hnew, hinv⟩
  | cons j js ih =>
    intro j2len newj2len besti bestj bestsize hjs hold hnew hinv
    have hj : blo ≤ j ∧ j < bhi := hjs j (List.mem_cons_self _ _)
    have hjs' : ∀ x ∈ js, blo ≤ x ∧ x < bhi := fun x hx => hjs x (List.mem_cons_of_mem _ hx)
    have hkb : (if j = 0 then 0 else lookupD j2len (j - 1)) + blo ≤ j ∧
        (if j = 0 then 0 else lookupD j2len (j - 1)) + alo ≤ i := by
      rcases Nat.eq_zero_or_pos j with hj0 | hjpos
      · subst hj0
        simp only [if_true]
        omega
      · have hne : j ≠ 0 := by omega
        simp only [hne, if_false]
        rcases lookupD_mem j2len (j - 1) with h0 | hmem
        · rw [h0]; omega
        · have := hold _ hmem
          simp only at this
          omega
    simp only [jloop]
    generalize hkv : (if j = 0 then 0 else lookupD j2len (j - 1)) = kv at hkb ⊢
    have hnew' : ∀ p ∈ setA newj2len j (kv + 1),
        p.2 + blo ≤ p.1 + 1 ∧ p.2 + alo ≤ i + 1 := by
      refine setA_forall j (kv + 1) ?_ newj2len hnew
      simp only
      omega
    by_cases hlt : bestsize < kv + 1
    · simp only [hlt, if_true]
      refine ih j2len _ _ _ _ hjs' hold hnew' ?_
      constructor
      · intro h0; omega
      · intro _
        refine ⟨by omega, by omega, by omega, by omega⟩
    · simp only [hlt, if_false]
      exact ih j2len _ _ _ _ hjs' hold hnew' hinv

/-- Invariant preservation through `iloop` over `range' i₀ n`. -/
theorem iloop_inv (a : Array String) (b2j : List (String × List Nat))
    (alo ahi blo bhi : Nat) :
    ∀ (n i₀ : Nat) (j2len : List (Nat × Nat)) (besti bestj bestsize : Nat),
      alo ≤ i₀ → i₀ + n ≤ ahi →
      (∀ p ∈ j2len, p.2 + blo ≤ p.1 + 1 ∧ p.2 + alo ≤ i₀) →
      MatchInv alo ahi blo bhi besti bestj bestsize →
      MatchInv alo ahi blo bhi
        (iloop a b2j blo bhi (List.range' i₀ n) j2len besti bestj bestsize).1
        (iloop a b2j blo bhi (List.range' i₀ n) j2len besti bestj bestsize).2.1
        (iloop a b2j blo bhi (List.range' i₀ n) j2len besti bestj bestsize).2.2 := by
  intro n
  induction n with
  | zero =>
    intro i₀ j2len besti bestj bestsize _ _ _ hinv
    exact hinv
  | succ n ih =>
    intro i₀ j2len besti bestj bestsize h₁ h₂ hold hinv
    have hr := jloop_inv alo ahi blo bhi i₀ h₁ (by omega)
      (seqJs blo bhi (b2jGet b2j (a.getD i₀ ""))) j2len [] besti bestj bestsize
      (seqJs_mem blo bhi _) hold (by simp) hinv
    have hrange : List.range' i₀ (n + 1) = i₀ :: List.range' (i₀ + 1) n := by
      simp [List.range']
    rw [hrange]
    simp only [iloop]
    exact ih (i₀ + 1) _ _ _ _ (by omega) (by omega)
      (fun p hp => hr.1 p hp) hr.2

theorem extLeftF_inv (a b : Array String) (alo ahi blo bhi : Nat) :
    ∀ (fuel besti bestj bestsize : Nat),
      MatchInv alo ahi blo bhi besti bestj bestsize →
      MatchInv alo ahi blo bhi
        (extLeftF a b alo blo fuel besti bestj bestsize).1
        (extLeftF a b alo blo fuel besti bestj bestsize).2.1
        (extLeftF a b alo blo fuel besti bestj bestsize).2.2 := by
  intro fuel
  induction fuel with
  | zero => intro besti bestj bestsize hinv; exact hinv
  | succ fuel ih =>
    intro besti bestj bestsize hinv
    simp only [extLeftF]
    split
    · next hcond =>
      have hb' : alo < besti := hcond.1
      have hb'' : blo < bestj := hcond.2.1
      have hsz : bestsize ≠ 0 := by
        intro h0
        have := (hinv.1 h0).1
        omega
      have hbd := hinv.2 hsz
      refine ih (besti - 1) (bestj - 1) (bestsize + 1) ?_
      constructor
      · intro h0; omega
      · intro _
        exact ⟨by omega, by omega, by omega, by omega⟩
    · exact hinv

theorem extRightF_inv (a b : Array String) (alo ahi blo bhi : Nat) :
    ∀ (fuel besti bestj bestsize : Nat),
      MatchInv alo ahi blo bhi besti bestj bestsize →
      MatchInv alo ahi blo bhi
        (extRightF a b ahi bhi fuel besti bestj bestsize).1
        (extRightF a b ahi bhi fuel besti bestj bestsize).2.1
        (extRightF a b ahi bhi fuel besti bestj bestsize).2.2 := by
  intro fuel
  induction fuel with
  | zero => intro besti bestj bestsize hinv; exact hinv
  | succ fuel ih =>
    intro besti bestj bestsize hinv
    simp only [extRightF]
    split
    · next hcond =>
      refine ih besti bestj (bestsize + 1) ?_
      constructor
      · intro h0; omega
      · intro _
        rcases Nat.eq_zero_or_pos bestsize with h0 | hpos
        · have := hinv.1 h0
          exact ⟨by omega, by omega, by omega, by omega⟩
        · have := hinv.2 (by omega)
          exact ⟨by omega, by omega, by omega, by omega⟩
    · exact hinv

/-- The window invariant holds of `find_longest_match`'s result; its positive
case is what the termination of the `get_matching_blocks` work queue needs. -/
theorem findLongestMatch_inv (a b : Array String) (b2j : List (String × List Nat))
    (alo ahi blo bhi : Nat) :
    MatchInv alo ahi blo bhi
      (findLongestMatch a b b2j alo ahi blo bhi).1
      (findLongestMatch a b b2j alo ahi blo bhi).2.1
      (findLongestMatch a b b2j alo ahi blo bhi).2.2 := by
  have hinit : MatchInv alo ahi blo bhi alo blo 0 :=
    ⟨fun _ => ⟨rfl, rfl⟩, fun h => absurd rfl h⟩
  have h₀ : MatchInv alo ahi blo bhi
      (iloop a b2j blo bhi (List.range' alo (ahi - alo)) [] alo blo 0).1
      (iloop a b2j blo bhi (List.range' alo (ahi - alo)) [] alo blo 0).2.1
      (iloop a b2j blo bhi (List.range' alo (ahi - alo)) [] alo blo 0).2.2 := by
    rcases Nat.le_total alo ahi with hle | hge
    · exact iloop_inv a b2j alo ahi blo bhi (ahi - alo) alo [] alo blo 0 le_rfl
        (by omega) (by simp) hinit
    · have hz : ahi - alo = 0 := by omega
      rw [hz]
      exact hinit
  have h₁ := extLeftF_inv a b alo ahi blo bhi
    (iloop a b2j blo bhi (List.range' alo (ahi - alo)) [] alo blo 0).1
    (iloop a b2j blo bhi (List.range' alo (ahi - alo)) [] alo blo 0).1
    (iloop a b2j blo bhi (List.range' alo (ahi - alo)) [] alo blo 0).2.1
    (iloop a b2j blo bhi (List.range' alo (ahi - alo)) [] alo blo 0).2.2 h₀
  exact extRightF_inv a b alo ahi blo bhi _ _ _ _ h₁

/-- The work queue of `get_matching_blocks`.  CPython keeps a stack
(`queue.pop()` pops the most recently pushed range); the pop order only
permutes the collected matches, which are sorted afterwards, so the model
processes ranges head-first.  A zero-size match collects nothing and pushes
nothing; a positive one is collected and the flanking sub-ranges are pushed
under the same `alo < i and blo < j` / `i+k < ahi and j+k < bhi` guards.
Structural fuel keeps the loop kernel-reducible: by `findLongestMatch_inv`
every collected match lies inside its window, so each step shrinks
`(Σ (ahi-alo) + (bhi-blo)) + length` of the queue, and the initial fuel
`a.size + b.size + 1` (that measure of the initial queue) always suffices. -/
def mbGoF (a b : Array String) (b2j : List (String × List Nat)) :
    Nat → List (Nat × Nat × Nat × Nat) → List (Nat × Nat × Nat) → List (Nat × Nat × Nat)
  | 0, _, acc => acc
  | _ + 1, [], acc => acc
  | fuel + 1, (alo, ahi, blo, bhi) :: rest, acc =>
    match findLongestMatch a b b2j alo ahi blo bhi with
    | (i, j, k) =>
      if k = 0 then mbGoF a b b2j fuel rest acc
      else
        mbGoF a b b2j fuel
          ((if alo < i ∧ blo < j then [(alo, i, blo, j)] else []) ++
           (if i + k < ahi ∧ j + k < bhi then [(i + k, ahi, j + k, bhi)] else []) ++
           rest)
          ((i, j, k) :: acc)

/-- Python tuple ordering on match triples (`matching_blocks.sort()`). -/
def blockLe (x y : Nat × Nat × Nat) : Bool :=
  decide (x.1 < y.1) ||
    (decide (x.1 = y.1) &&
      (decide (x.2.1 < y.2.1) || (decide (x.2.1 = y.2.1) && decide (x.2.2 ≤ y.2.2))))

def insertSorted (x : Nat × Nat × Nat) : List (Nat × Nat × Nat) → List (Nat × Nat × Nat)
  | [] => [x]
  | y :: ys => if blockLe x y then x :: y :: ys else y :: insertSorted x ys

def sortBlocks : List (Nat × Nat × Nat) → List (Nat × Nat × Nat)
  | [] => []
  | x :: xs => insertSorted x (sortBlocks xs)

/-- Merge adjacent matches (`i1 + k1 == i2 and j1 + k1 == j2`), dropping
zero-size leftovers, as in `get_matching_blocks`. -/
def collapseGo (i1 j1 k1 : Nat) : List (Nat × Nat × Nat) → List (Nat × Nat × Nat)
  | [] => if k1 ≠ 0 then [(i1, j1, k1)] else []
  | (i2, j2, k2) :: rest =>
    if i1 + k1 = i2 ∧ j1 + k1 = j2 then collapseGo i1 j1 (k1 + k2) rest
    else (if k1 ≠ 0 then [(i1, j1, k1)] else []) ++ collapseGo i2 j2 k2 rest

/-- `SequenceMatcher(None, a, b).get_matching_blocks()` with the final
`(la, lb, 0)` sentinel. -/
def getMatchingBlocks (a b : Array String) : List (Nat × Nat × Nat) :=
  collapseGo 0 0 0
    (sortBlocks (mbGoF a b (mkB2j b.toList) (a.size + b.size + 1)
      [(0, a.size, 0, b.size)] [])) ++
    [(a.size, b.size, 0)]

/-- One opcode of `get_opcodes`. -/
structure Op where
  tag : String
  i1 : Nat
  i2 : Nat
  j1 : Nat
  j2 : Nat
deriving DecidableEq, Repr

def opcodesGo : Nat → Nat → List (Nat × Nat × Nat) → List Op
  | _, _, [] => []
  | i, j, (ai, bj, size) :: rest =>
    (if i < ai ∧ j < bj then [⟨"replace", i, ai, j, bj⟩]
     else if i < ai then [⟨"delete", i, ai, j, bj⟩]
     else if j < bj then [⟨"insert", i, ai, j, bj⟩]
     else []) ++
    (if size ≠ 0 then [⟨"equal", ai, ai + size, bj, bj + size⟩] else []) ++
    opcodesGo (ai + size) (bj + size) rest

def getOpcodes (a b : Array String) : List Op := opcodesGo 0 0 (getMatchingBlocks a b)

/-- `get_grouped_opcodes`: shrink a leading `equal` opcode to `n = 3` context
lines. -/
def fixupHead : List Op → List Op
  | [] => []
  | c :: rest =>
    if c.tag = "equal" then
      ⟨c.tag, max c.i1 (c.i2 - 3), c.i2, max c.j1 (c.j2 - 3), c.j2⟩ :: rest
    else c :: rest

/-- `get_grouped_opcodes`: shrink a trailing `equal` opcode to `n = 3` context
lines. -/
def fixupLast : List Op → List Op
  | [] => []
  | [c] =>
    if c.tag = "equal" then
      [⟨c.tag, c.i1, min c.i2 (c.i1 + 3), c.j1, min c.j2 (c.j1 + 3)⟩]
    else [c]
  | c :: rest => c :: fixupLast rest

/-- The group loop of `get_grouped_opcodes` (`nn = n + n = 6`): a long
`equal` run ends the current group and starts the next; a final group that is
a single `equal` opcode is not yielded. -/
def groupsGo : List Op → List (List Op) → List Op → List (List Op)
  | group, acc, [] =>
    if group ≠ [] ∧
        ¬(group.length = 1 ∧ (match group with | g :: _ => g.tag | [] => "") = "equal") then
      acc ++ [group]
    else acc
  | group, acc, c :: rest =>
    if c.tag = "equal" ∧ 6 < c.i2 - c.i1 then
      groupsGo [⟨c.tag, max c.i1 (c.i2 - 3), c.i2, max c.j1 (c.j2 - 3), c.j2⟩]
        (acc ++ [group ++ [⟨c.tag, c.i1, min c.i2 (c.i1 + 3), c.j1, min c.j2 (c.j1 + 3)⟩]])
        rest
    else groupsGo (group ++ [c]) acc rest

/-- `get_grouped_opcodes(3)`, including the `[("equal", 0, 1, 0, 1)]`
placeholder for an empty opcode list. -/
def getGroupedOpcodes (a b : Array String) : List (List Op) :=
  groupsGo [] []
    (fixupLast (fixupHead
      (if getOpcodes a b = [] then [⟨"equal", 0, 1, 0, 1⟩] else getOpcodes a b)))

/-- `difflib._format_range_unified`. -/
def formatRangeUnified (start stop : Nat) : String :=
  if stop - start = 1 then natStr (start + 1)
  else if stop - start = 0 then natStr start ++ "," ++ natStr 0
  else natStr (start + 1) ++ "," ++ natStr (stop - start)

/-- Python slice `xs[i1:i2]`. -/
def sliceA (a : Array String) (i1 i2 : Nat) : List String :=
  (a.toList.drop i1).take (i2 - i1)

/-- The body lines one opcode contributes to a hunk. -/
def opLines (a b : Array String) (c : Op) : List String :=
  if c.tag = "equal" then (sliceA a c.i1 c.i2).map (fun l => " " ++ l)
  else
    (if c.tag = "replace" ∨ c.tag = "delete" then
      (sliceA a c.i1 c.i2).map (fun l => "-" ++ l)
    else []) ++
    (if c.tag = "replace" ∨ c.tag = "insert" then
      (sliceA b c.j1 c.j2).map (fun l => "+" ++ l)
    else [])

def hunkBody (a b : Array String) : List Op → List String
  | [] => []
  | c :: rest => opLines a b c ++ hunkBody a b rest

/-- One group's lines: the `@@ -r1 +r2 @@` header built from the group's first
and last opcodes, then the body. -/
def hunkLines (a b : Array String) (g : List Op) : List String :=
  match g with
  | [] => []
  | first :: _ =>
    ("@@ -" ++ formatRangeUnified first.i1 (g.getLastD first).i2 ++ " +" ++
      formatRangeUnified first.j1 (g.getLastD first).j2 ++ " @@") :: hunkBody a b g

def unifiedDiffGroups (a b : Array String) : List (List Op) → List String
  | [] => []
  | g :: gs => hunkLines a b g ++ unifiedDiffGroups a b gs

/-- `list(difflib.unified_diff(a, b, fromfile="before", tofile="after",
lineterm=""))`: the two file headers are emitted before the first group only
(they are absent when there is no group at all). -/
def unifiedDiff (a b : Array String) : List String :=
  match getGroupedOpcodes a b with
  | [] => []
  | gs => ["--- before", "+++ after"] ++ unifiedDiffGroups a b gs

/-- The line-break set of Python `str.splitlines` (`\r\n` is one break). -/
def isLineBreak (c : Char) : Bool :=
  c == '\n' || c == '\r' || c.toNat == 0x0b || c.toNat == 0x0c || c.toNat == 0x1c ||
    c.toNat == 0x1d || c.toNat == 0x1e || c.toNat == 0x85 || c.toNat == 0x2028 ||
    c.toNat == 0x2029

def splitlinesGo (cur : List Char) : List Char → List String
  | [] => if cur.isEmpty then [] else [String.mk cur.reverse]
  | '\r' :: '\n' :: rest => String.mk cur.reverse :: splitlinesGo [] rest
  | c :: rest =>
    if isLineBreak c then String.mk cur.reverse :: splitlinesGo [] rest
    else splitlinesGo (c :: cur) rest

/-- Python `s.splitlines()`. -/
def pySplitlines (s : String) : List String := splitlinesGo [] s.toList

/-- The truncation marker line inserted by `make_diff`. -/
def truncMarker : String := "... (diff truncated) ..."

/-- The raw `diff_lines` of `make_diff` (lines 87-97): the unified diff of
the two texts' `splitlines()`. -/
def rawDiffLines (old_text new_text : String) : List String :=
  unifiedDiff (pySplitlines old_text).toArray (pySplitlines new_text).toArray

/-- Lines 99-105 of `make_diff`: the empty-diff placeholder, and the
truncation to `MAX_DIFF_LINES // 2 = 20` head lines, the marker, then
`diff_lines[-20:]` (the last 20 lines, i.e. `drop (length - 20)`). -/
def truncateDiff (diff_lines : List String) : List String :=
  if diff_lines = [] then ["(No textual diff found)"]
  else if MAX_DIFF_LINES < diff_lines.length then
    diff_lines.take (MAX_DIFF_LINES / 2) ++ [truncMarker] ++
      diff_lines.drop (diff_lines.length - MAX_DIFF_LINES / 2)
  else diff_lines

/-- The lines of the message `make_diff` returns. -/
def makeDiffLines (old_text new_text : String) : List String :=
  truncateDiff (rawDiffLines old_text new_text)

/-- `make_diff` (lines 86-107): the joined message. -/
def make_diff (old_text new_text : String) : String :=
  String.intercalate "\n" (makeDiffLines old_text new_text)

end Webwatch

namespace Webwatch

/-! ## Persisted per-target entry

`state.json` maps a URL to a dict.  The script reads/writes exactly the keys
`hash`, `text`, `found`, `ts`, `last_alert_ts`; the entry is modelled as a
record of optional fields (a missing key is `none`). -/

structure Entry where
  hash : Option String := none
  text : Option String := none
  found : Option Bool := none
  ts : Option Int := none
  last_alert_ts : Option Int := none
deriving DecidableEq, Repr

/-- `should_alert_now` (lines 126-130).  `if not last_alert_ts` is Python
truthiness: both a missing key (`None`) and a stored `0` take the `True`
branch.  Otherwise `(time.time() - last_alert_ts) >= ALERT_COOLDOWN_S`. -/
def should_alert_now (now cooldown : Int) (entry : Entry) : Bool :=
  match entry.last_alert_ts with
  | none => true
  | some t => if t = 0 then true else decide (cooldown ≤ now - t)

/-- Keyword-mode branch of the per-target body (lines 160-177), after
`found = (w.keyword in text)`.  Returns the updated entry and the change
message appended to `changes` (if any). -/
def processKeyword (kw text : String) (now cooldown : Int) (entry : Entry) :
    Entry × Option String :=
  let found := pyIn kw text
  match entry.found with
  | none => ({ found := some found, ts := some now }, none)
  | some prev_found =>
    if found ≠ prev_found then
      let alerted := should_alert_now now cooldown entry
      let entry₁ := if alerted then { entry with last_alert_ts := some now } else entry
      let msg := if alerted then
          some ("Keyword '" ++ kw ++ "' changed: " ++
            (if prev_found then "True" else "False") ++ " → " ++
            (if found then "True" else "False"))
        else none
      ({ entry₁ with found := some found, ts := some now }, msg)
    else
      ({ entry with ts := some now }, none)

/-- Hash-mode branch of the per-target body (lines 179-202): `h = sha256(text)`
on the full normalized text; on a change the diff is `make_diff` of the
previously stored text (default `""`) against the full current text, and only
the stored copy is clamped. -/
def processHash (text : String) (now cooldown : Int) (entry : Entry) :
    Entry × Option String :=
  let h := sha256 text
  match entry.hash with
  | none =>
    ({ hash := some h, text := some (clamp_text text), ts := some now }, none)
  | some prev =>
    if h ≠ prev then
      let old_text := entry.text.getD ""
      let diff_text := make_diff old_text text
      let alerted := should_alert_now now cooldown entry
      let entry₁ := if alerted then { entry with last_alert_ts := some now } else entry
      let msg := if alerted then some diff_text else none
      ({ entry₁ with hash := some h, text := some (clamp_text text), ts := some now }, msg)
    else
      ({ entry with ts := some now }, none)

/-! ## Watch configuration and per-target processing -/

/-- `Watch` (lines 51-58). -/
structure Watch where
  name : String := ""
  url : String := ""
  mode : String := "hash"
  keyword : Option String := none
  selector : Option String := none
  headers : List (String × String) := []
deriving DecidableEq, Repr

/-- Python truthiness of an optional string (`not w.keyword`): `None` and the
empty string are falsy. -/
def pyFalsyStrOpt : Option String → Bool
  | none => true
  | some s => s == ""

/-- The mode dispatch of the per-target body (lines 160-202), given the fetched
and normalized text.  Keyword mode without a keyword raises
`ValueError("keyword mode requires 'keyword'")`, modelled as `.error`; any mode
other than the exact string `"keyword"` takes the hash branch (`else`). -/
def stepEntry (w : Watch) (text : String) (now cooldown : Int) (entry : Entry) :
    Except String (Entry × Option String) :=
  if w.mode == "keyword" then
    match w.keyword with
    | none => .error "ValueError: keyword mode requires 'keyword'"
    | some kw =>
      if kw == "" then .error "ValueError: keyword mode requires 'keyword'"
      else .ok (processKeyword kw text now cooldown entry)
  else
    .ok (processHash text now cooldown entry)

/-! ## State map

`state` is a JSON object keyed by URL; Python dicts preserve insertion order
and update values in place, modelled by an insertion-ordered association
list. -/

def StateMap := List (String × Entry)

/-- `state.get(url, {})`. -/
def stateGet (st : List (String × Entry)) (url : String) : Entry :=
  match st with
  | [] => {}
  | (k, e) :: rest => if k = url then e else stateGet rest url

/-- Is a key present (`url in state`)? -/
def stateHas (st : List (String × Entry)) (url : String) : Bool :=
  match st with
  | [] => false
  | (k, _) :: rest => k == url || stateHas rest url

/-- `state[url] = e`: replace in place, else append. -/
def stateSet (st : List (String × Entry)) (url : String) (e : Entry) :
    List (String × Entry) :=
  match st with
  | [] => [(url, e)]
  | (k, e₀) :: rest => if k = url then (k, e) :: rest else (k, e₀) :: stateSet rest url e

/-! ## Run orchestration (`main`, lines 133-223)

The fetch+normalize pipeline (`fetch_with_retries` then `normalize_text`,
lines 155-156) is external I/O: it is modelled as an oracle
`fetch : Watch → Except String String` returning either the normalized text of
the page or the per-target error string `f"{type(e).__name__}: {e}"` recorded
by the `except` handler.  `random.shuffle` is likewise an oracle
`shuffle : List Watch → List Watch`.  The wall clock is a fixed `now` and the
cooldown an explicit parameter (see the tunables note above). -/

/-- One iteration of the target loop (lines 153-208): returns the updated
state, the change appended to `changes` (if any) and the error appended to
`errors` (if any).  A failing target leaves the state untouched. -/
def runTarget (fetch : Watch → Except String String) (now cooldown : Int)
    (w : Watch) (st : List (String × Entry)) :
    List (String × Entry) × Option (Watch × String) × Option (Watch × String) :=
  match fetch w with
  | .error e => (st, none, some (w, e))
  | .ok text =>
    match stepEntry w text now cooldown (stateGet st w.url) with
    | .error e => (st, none, some (w, e))
    | .ok (e', msg) => (stateSet st w.url e', msg.map (fun m => (w, m)), none)

/-- The whole target loop, threading the state and collecting `changes` and
`errors` in iteration order. -/
def runAll (fetch : Watch → Except String String) (now cooldown : Int) :
    List Watch → List (String × Entry) →
    List (String × Entry) × List (Watch × String) × List (Watch × String)
  | [], st => (st, [], [])
  | w :: ws, st =>
    let r := runTarget fetch now cooldown w st
    let rest := runAll fetch now cooldown ws r.1
    (rest.1, r.2.1.toList ++ rest.2.1, r.2.2.toList ++ rest.2.2)

/-- The configuration record (`config.json`): `cfg.get("ntfy_topic")` and
`cfg.get("watches", [])`. -/
structure Config where
  ntfy_topic : Option String := none
  watches : List Watch := []

/-- The validation of lines 138-143, in order: `if not topic`,
`if not watches_cfg`, `if len(watches_cfg) > 50`; each raises `SystemExit`
with the given message (a non-zero process exit). -/
def validateConfig (cfg : Config) : Option String :=
  if pyFalsyStrOpt cfg.ntfy_topic then some "Missing ntfy_topic in config.json"
  else if cfg.watches.isEmpty then some "No watches configured in config.json"
  else if 50 < cfg.watches.length then
    some "Config has more than 50 watches; trim to <= 50."
  else none

/-- The outcome of a completed run: the state mapping passed to `save_json`
(line 210) and the aggregated `changes` and `errors` lists feeding the two
notifications; `main` returns 0 (line 223). -/
structure RunOutcome where
  finalState : List (String × Entry)
  changes : List (Watch × String)
  errors : List (Watch × String)
  exitCode : Nat

/-- `main` (lines 133-223).  Validation happens before any use of the fetch
oracle; on success the shuffled watches are processed, the state is saved
once, and the exit code is 0 even when per-target errors were collected. -/
def mainModel (cfg : Config) (state0 : List (String × Entry))
    (shuffle : List Watch → List Watch) (fetch : Watch → Except String String)
    (now cooldown : Int) : Except String RunOutcome :=
  match validateConfig cfg with
  | some msg => .error msg
  | none =>
    let r := runAll fetch now cooldown (shuffle cfg.watches) state0
    .ok { finalState := r.1, changes := r.2.1, errors := r.2.2, exitCode := 0 }

/-- What reaches `save_json`: nothing on an aborted run. -/
def savedState : Except String RunOutcome → Option (List (String × Entry))
  | .error _ => none
  | .ok r => some r.finalState

/-! ## JSON state persistence (`load_json`/`save_json`, lines 29-42)

`save_json` writes `json.dump(obj, f, indent=2, ensure_ascii=False)` to a
temporary file and atomically replaces the state file; `load_json` reads it
back with `json.load`.  The file I/O and `os.replace` are external; the model
covers the serialization round trip on the JSON sublanguage state mappings
live in: objects with string keys whose values are strings, integers,
booleans, or nested objects (`null`, arrays and floats do not occur in
state files written by the script). -/

/-- JSON values as they occur in `state.json`. -/
inductive J where
  | str : String → J
  | int : Int → J
  | bool : Bool → J
  | obj : List (String × J) → J

/-- Lowercase 4-digit hex (`'\u%04x' % n`). -/
def hex4Lower (n : Nat) : List Char :=
  [hexDigitChar (n / 4096 % 16), hexDigitChar (n / 256 % 16),
   hexDigitChar (n / 16 % 16), hexDigitChar (n % 16)]

/-- The escape of one character in `json.encoder` with `ensure_ascii=False`:
only `"`, `\\` and control characters are escaped (short escapes for the
common ones, `\u00xx` otherwise); everything else, Unicode included, is
written raw. -/
def escChar (c : Char) : List Char :=
  if c = '"' then ['\\', '"']
  else if c = '\\' then ['\\', '\\']
  else if c = '\n' then ['\\', 'n']
  else if c = '\r' then ['\\', 'r']
  else if c = '\t' then ['\\', 't']
  else if c.toNat = 8 then ['\\', 'b']
  else if c.toNat = 12 then ['\\', 'f']
  else if c.toNat < 32 then '\\' :: 'u' :: hex4Lower c.toNat
  else [c]

def escStr : List Char → List Char
  | [] => []
  | c :: cs => escChar c ++ escStr cs

def quoteStr (s : String) : List Char := '"' :: (escStr s.toList ++ ['"'])

/-- `str(n)` for a Python int. -/
def intChars (n : Int) : List Char :=
  if n < 0 then '-' :: natDigs n.natAbs else natDigs n.toNat

def spacesC (n : Nat) : List Char := List.replicate n ' '

mutual

/-- `json.dumps(v, indent=2, ensure_ascii=False)` as a character list;
`ind` is the indentation column of the value's closing brace. -/
def printJ (ind : Nat) : J → List Char
  | .str s => quoteStr s
  | .int n => intChars n
  | .bool b => if b then ['t', 'r', 'u', 'e'] else ['f', 'a', 'l', 's', 'e']
  | .obj [] => ['\x7b', '\x7d']
  | .obj (f :: fs) =>
    '\x7b' :: '\n' :: (printFields (ind + 2) (f :: fs) ++ '\n' :: (spacesC ind ++ ['\x7d']))

/-- The members of a non-empty object, one per line at column `ind`,
separated by `",\n"`, keys and values separated by `": "`. -/
def printFields (ind : Nat) : List (String × J) → List Char
  | [] => []
  | [(k, v)] => spacesC ind ++ (quoteStr k ++ ':' :: ' ' :: printJ ind v)
  | (k, v) :: rest =>
    spacesC ind ++ (quoteStr k ++ ':' :: ' ' :: (printJ ind v ++ ',' :: '\n' :: printFields ind rest))

end

def json_dumps (j : J) : String := String.mk (printJ 0 j)

/-- JSON whitespace skipped by the decoder. -/
def isJsonWs (c : Char) : Bool := c == ' ' || c == '\t' || c == '\n' || c == '\r'

def skipWs : List Char → List Char
  | [] => []
  | c :: cs => if isJsonWs c then skipWs cs else c :: cs

def digVal (c : Char) : Option Nat :=
  if '0' ≤ c ∧ c ≤ '9' then some (c.toNat - 48) else none

def hexVal (c : Char) : Option Nat :=
  if '0' ≤ c ∧ c ≤ '9' then some (c.toNat - 48)
  else if 'a' ≤ c ∧ c ≤ 'f' then some (c.toNat - 87)
  else if 'A' ≤ c ∧ c ≤ 'F' then some (c.toNat - 55)
  else none

/-- The short escapes accepted after a backslash. -/
def escCode (e : Char) : Option Char :=
  if e = '"' then some '"'
  else if e = '\\' then some '\\'
  else if e = '/' then some '/'
  else if e = 'b' then some (Char.ofNat 8)
  else if e = 'f' then some (Char.ofNat 12)
  else if e = 'n' then some '\n'
  else if e = 'r' then some '\r'
  else if e = 't' then some '\t'
  else none

/-- `json` string scanning (strict mode): the body after the opening quote, up
to the closing quote.  Control characters must be escaped; `\uXXXX` denotes a
code point (the script's own output never emits `\u` escapes above `0x1f`, so
surrogate pairing does not arise on the round trip; a lone surrogate value is
not representable as a `Char` and is rejected here). -/
def parseStrBody : List Char → Option (List Char × List Char)
  | [] => none
  | c :: rest =>
    if c = '"' then some ([], rest)
    else if c = '\\' then
      match rest with
      | [] => none
      | e :: rs =>
        if e = 'u' then
          match rs with
          | h1 :: h2 :: h3 :: h4 :: rs' =>
            match hexVal h1, hexVal h2, hexVal h3, hexVal h4 with
            | some a, some b, some c', some d =>
              let n := ((a * 16 + b) * 16 + c') * 16 + d
              if n < 0xd800 ∨ (0xdfff < n ∧ n < 0x110000) then
                match parseStrBody rs' with
                | some (cs, r) => some (Char.ofNat n :: cs, r)
                | none => none
              else none
            | _, _, _, _ => none
          | _ => none
        else
          match escCode e with
          | some d =>
            match parseStrBody rs with
            | some (cs, r) => some (d :: cs, r)
            | none => none
          | none => none
    else if c.toNat < 32 then none
    else
      match parseStrBody rest with
      | some (cs, r) => some (c :: cs, r)
      | none => none

/-- Greedy decimal digit run (`acc` accumulates left to right). -/
def parseDigits (acc : Nat) : List Char → Nat × List Char
  | [] => (acc, [])
  | c :: cs =>
    match digVal c with
    | some d => parseDigits (acc * 10 + d) cs
    | none => (acc, c :: cs)

/-- The integer part of the JSON number grammar `(-?(?:0|[1-9]\d*))`: a
leading `0` is the whole integer part.  (A fraction or exponent would make
`json.load` produce a float; state files written by the script only contain
integers.) -/
def parseNatTok : List Char → Option (Nat × List Char)
  | [] => none
  | c :: rest =>
    if c = '0' then some (0, rest)
    else
      match digVal c with
      | some d => some (parseDigits d rest)
      | none => none

def parseIntTok : List Char → Option (Int × List Char)
  | [] => none
  | c :: rest =>
    if c = '-' then (parseNatTok rest).map (fun p => (-(p.1 : Int), p.2))
    else (parseNatTok (c :: rest)).map (fun p => ((p.1 : Int), p.2))

/-- The member loop of the object decoder, parameterized by the value
decoder `pv`: `"key" : value` then `,` and the next member, or the closing
brace.  `mfuel` only bounds the number of members (the caller passes more
than the input length can hold). -/
def parseMembersGo (pv : List Char → Option (J × List Char)) :
    Nat → List Char → Option (List (String × J) × List Char)
  | 0, _ => none
  | mfuel' + 1, l =>
    match l with
    | [] => none
    | c :: rest =>
      if c = '"' then
        match parseStrBody rest with
        | none => none
        | some (kcs, r1) =>
          match skipWs r1 with
          | [] => none
          | c₁ :: r2 =>
            if c₁ = ':' then
              match pv r2 with
              | none => none
              | some (v, r3) =>
                match skipWs r3 with
                | [] => none
                | c₂ :: r4 =>
                  if c₂ = ',' then
                    match parseMembersGo pv mfuel' (skipWs r4) with
                    | none => none
                    | some (fs, r5) => some ((String.mk kcs, v) :: fs, r5)
                  else if c₂ = '\x7d' then some ([(String.mk kcs, v)], r4)
                  else none
            else none
      else none

/-- The string branch of the value dispatch (the characters after `"`). -/
def strValue (rest : List Char) : Option (J × List Char) :=
  (parseStrBody rest).map (fun p => (J.str (String.mk p.1), p.2))

/-- The `true` literal branch (the characters after `t`). -/
def trueValue : List Char → Option (J × List Char)
  | 'r' :: 'u' :: 'e' :: rs => some (J.bool true, rs)
  | _ => none

/-- The `false` literal branch (the characters after `f`). -/
def falseValue : List Char → Option (J × List Char)
  | 'a' :: 'l' :: 's' :: 'e' :: rs => some (J.bool false, rs)
  | _ => none

/-- The number branch of the value dispatch. -/
def intValue (c : Char) (rest : List Char) : Option (J × List Char) :=
  (parseIntTok (c :: rest)).map (fun p => (J.int p.1, p.2))

/-- The object branch (the characters after `\x7b`), parameterized by the
member loop `pm` taking its member-count bound. -/
def objValue (pm : Nat → List Char → Option (List (String × J) × List Char))
    (rest : List Char) : Option (J × List Char) :=
  match skipWs rest with
  | [] => none
  | c' :: rest' =>
    if c' = '\x7d' then some (J.obj [], rest')
    else (pm (rest'.length + 1) (c' :: rest')).map (fun p => (J.obj p.1, p.2))

/-- Value dispatch on the first non-whitespace character; `fuel` bounds the
object-nesting depth. -/
def parseValueCore : Nat → List Char → Option (J × List Char)
  | _, [] => none
  | fuel, c :: rest =>
    if c = '"' then strValue rest
    else if c = '\x7b' then
      match fuel with
      | 0 => none
      | fuel' + 1 =>
        objValue (parseMembersGo (fun l => parseValueCore fuel' (skipWs l))) rest
    else if c = 't' then trueValue rest
    else if c = 'f' then falseValue rest
    else intValue c rest

/-- `json.load` on the sublanguage of §`J` (whitespace-tolerant). -/
def parseValue (fuel : Nat) (l : List Char) : Option (J × List Char) :=
  parseValueCore fuel (skipWs l)

/-- The member loop at a given nesting fuel. -/
def parseMembers (fuel mfuel : Nat) (l : List Char) :
    Option (List (String × J) × List Char) :=
  parseMembersGo (fun l' => parseValueCore fuel (skipWs l')) mfuel l

/-- `json.loads` of a whole document: one value and trailing whitespace. -/
def json_loads (s : String) : Option J :=
  match parseValue (s.length + 1) s.toList with
  | none => none
  | some (v, rest) => if (skipWs rest).isEmpty then some v else none

/-- The JSON object the script persists for one entry (present fields only;
string fields as JSON strings, timestamps as integers, `found` as a
boolean). -/
def entryJson (e : Entry) : J :=
  J.obj ((match e.hash with | some h => [("hash", J.str h)] | none => []) ++
    (match e.text with | some t => [("text", J.str t)] | none => []) ++
    (match e.found with | some b => [("found", J.bool b)] | none => []) ++
    (match e.ts with | some t => [("ts", J.int t)] | none => []) ++
    (match e.last_alert_ts with | some t => [("last_alert_ts", J.int t)] | none => []))

/-- The persisted state mapping as a JSON object keyed by URL. -/
def stateJson (st : List (String × Entry)) : J :=
  J.obj (st.map (fun p => (p.1, entryJson p.2)))

/-! ## Round-trip infrastructure for the JSON model -/

/-- Non-whitespace tails a printed integer may be followed by: the next
character (if any) is not a decimal digit, so the greedy digit scan stops
exactly at the integer's end. -/
def restSafe : List Char → Prop
  | [] => True
  | c :: _ => digVal c = none

mutual

/-- Nesting depth of a JSON value (used to bound the parser fuel). -/
def depthJ : J → Nat
  | .str _ => 0
  | .int _ => 0
  | .bool _ => 0
  | .obj fs => depthFields fs + 1

def depthFields : List (String × J) → Nat
  | [] => 0
  | (_, v) :: fs => max (depthJ v) (depthFields fs)

end

/-- The wire text of a non-empty member list as the object decoder sees it:
from the first key's opening quote through the object's closing brace,
followed by `rest`.  (`printFields` produces exactly this after its leading
indentation; see `printFields_wire`.) -/
def membersWire (ind : Nat) (rest : List Char) : List (String × J) → List Char
  | [] => rest
  | [(k, v)] =>
    quoteStr k ++ ':' :: ' ' :: (printJ ind v ++ '\n' :: (spacesC (ind - 2) ++ '\x7d' :: rest))
  | (k, v) :: fs =>
    quoteStr k ++ ':' :: ' ' ::
      (printJ ind v ++ ',' :: '\n' :: (spacesC ind ++ membersWire ind rest fs))

theorem stringMk_data (s : String) : String.mk s.data = s := rfl

theorem skipWs_spacesC (n : Nat) (l : List Char) : skipWs (spacesC n ++ l) = skipWs l := by
  induction n with
  | zero => rfl
  | succ n ih =>
    simp only [spacesC, List.replicate, List.cons_append, skipWs]
    exact ih

theorem skipWs_not (c : Char) (l : List Char) (h : isJsonWs c = false) :
    skipWs (c :: l) = c :: l := by
  simp [skipWs, h]

theorem parseValue_skipWs (fuel : Nat) (l₁ l₂ : List Char) (h : skipWs l₁ = skipWs l₂) :
    parseValue fuel l₁ = parseValue fuel l₂ := by
  rw [parseValue, parseValue, h]

/-- The escape map is inverted by the string scanner. -/
theorem parseStrBody_esc : ∀ (cs : List Char) (rest : List Char),
    parseStrBody (escStr cs ++ '"' :: rest) = some (cs, rest) := by
  intro cs
  induction cs with
  | nil =>
    intro rest
    simp only [escStr, List.nil_append]
    rw [parseStrBody.eq_def]
    simp
  | cons c cs ih =>
    intro rest
    show parseStrBody ((escChar c ++ escStr cs) ++ '"' :: rest) = _
    rw [List.append_assoc]
    unfold escChar
    by_cases h1 : c = '"'
    · subst h1
      simp only [if_true, List.cons_append, List.nil_append]
      rw [parseStrBody.eq_def]
      simp [escCode, ih]
    · rw [if_neg h1]
      by_cases h2 : c = '\\'
      · subst h2
        simp only [if_true, List.cons_append, List.nil_append]
        rw [parseStrBody.eq_def]
        simp [escCode, ih]
      · rw [if_neg h2]
        by_cases h3 : c = '\n'
        · subst h3
          simp only [if_true, List.cons_append, List.nil_append]
          rw [parseStrBody.eq_def]
          simp [escCode, ih]
        · rw [if_neg h3]
          by_cases h4 : c = '\r'
          · subst h4
            simp only [if_true, List.cons_append, List.nil_append]
            rw [parseStrBody.eq_def]
            simp [escCode, ih]
          · rw [if_neg h4]
            by_cases h5 : c = '\t'
            · subst h5
              simp only [if_true, List.cons_append, List.nil_append]
              rw [parseStrBody.eq_def]
              simp [escCode, ih]
            · rw [if_neg h5]
              by_cases h6 : c.toNat = 8
              · rw [if_pos h6]
                have hc : c = Char.ofNat 8 := by rw [← h6, Char.ofNat_toNat]
                rw [hc]
                simp only [List.cons_append, List.nil_append]
                rw [parseStrBody.eq_def]
                simp [escCode, ih]
              · rw [if_neg h6]
                by_cases h7 : c.toNat = 12
                · rw [if_pos h7]
                  have hc : c = Char.ofNat 12 := by rw [← h7, Char.ofNat_toNat]
                  rw [hc]
                  simp only [List.cons_append, List.nil_append]
                  rw [parseStrBody.eq_def]
                  simp [escCode, ih]
                · rw [if_neg h7]
                  by_cases h8 : c.toNat < 32
                  · rw [if_pos h8]
                    have hv : ∀ m, m < 16 → hexVal (hexDigitChar m) = some m := by decide
                    have hv1 := hv (c.toNat / 4096 % 16) (by omega)
                    have hv2 := hv (c.toNat / 256 % 16) (by omega)
                    have hv3 := hv (c.toNat / 16 % 16) (by omega)
                    have hv4 := hv (c.toNat % 16) (by omega)
                    have harith : ((c.toNat / 4096 % 16 * 16 + c.toNat / 256 % 16) * 16 +
                        c.toNat / 16 % 16) * 16 + c.toNat % 16 = c.toNat := by omega
                    have hlt : c.toNat < 0xd800 ∨ (0xdfff < c.toNat ∧ c.toNat < 0x110000) :=
                      Or.inl (by omega)
                    simp only [hex4Lower, List.cons_append, List.nil_append]
                    rw [parseStrBody.eq_def]
                    simp [hv1, hv2, hv3, hv4, harith, hlt, Char.ofNat_toNat, ih]
                  · rw [if_neg h8]
                    simp only [List.singleton_append]
                    rw [parseStrBody.eq_def]
                    simp [h1, h2, h8, ih]

theorem digVal_digitChar10 : ∀ d < 10, digVal (digitChar10 d) = some d := by decide

theorem digitChar10_of_ge (d : Nat) (h : 9 ≤ d) : digitChar10 d = '9' := by
  unfold digitChar10
  rcases d with _|_|_|_|_|_|_|_|_|d <;> first | omega | rfl

/-- The printed digits of `n` start with a digit character that is nonzero
when `n` is. -/
theorem natDigsF_cons : ∀ (n fuel : Nat), n < fuel →
    ∃ d tl, d ≤ 9 ∧ natDigsF fuel n = digitChar10 d :: tl ∧ (0 < n → 1 ≤ d) := by
  intro n
  induction n using Nat.strong_induction_on with
  | _ n ih =>
    intro fuel hf
    match fuel with
    | 0 => omega
    | f + 1 =>
      by_cases h10 : n < 10
      · exact ⟨n, [], by omega, by simp [natDigsF, h10], fun h => by omega⟩
      · have hdiv : n / 10 < f := by
          have h1 : n / 10 < n := Nat.div_lt_self (by omega) (by omega)
          omega
        obtain ⟨d, tl, hd9, heq, h1⟩ := ih (n / 10) (Nat.div_lt_self (by omega) (by omega)) f hdiv
        refine ⟨d, tl ++ [digitChar10 (n % 10)], hd9, ?_, fun _ => h1 (by omega)⟩
        simp [natDigsF, h10, heq]

/-- The greedy digit scan consumes a printed digit string wholesale,
folding it into the accumulator. -/
theorem parseDigits_natDigsF : ∀ (n fuel acc : Nat) (rest : List Char), n < fuel →
    parseDigits acc (natDigsF fuel n ++ rest) =
      parseDigits (acc * 10 ^ (natDigsF fuel n).length + n) rest := by
  intro n
  induction n using Nat.strong_induction_on with
  | _ n ih =>
    intro fuel acc rest hf
    match fuel with
    | 0 => omega
    | f + 1 =>
      by_cases h10 : n < 10
      · simp only [natDigsF, h10, if_true, List.cons_append, List.nil_append,
          List.length_singleton, pow_one]
        rw [parseDigits.eq_def]
        simp [digVal_digitChar10 n h10]
      · have hdiv : n / 10 < f := by
          have h1 : n / 10 < n := Nat.div_lt_self (by omega) (by omega)
          omega
        simp only [natDigsF, h10, if_false, List.append_assoc, List.cons_append,
          List.nil_append, List.length_append, List.length_singleton]
        rw [ih (n / 10) (Nat.div_lt_self (by omega) (by omega)) f acc
          (digitChar10 (n % 10) :: rest) hdiv]
        rw [parseDigits.eq_def]
        simp only [digVal_digitChar10 (n % 10) (by omega)]
        have harith : (acc * 10 ^ (natDigsF f (n / 10)).length + n / 10) * 10 + n % 10 =
            acc * 10 ^ ((natDigsF f (n / 10)).length + 1) + n := by
          rw [pow_succ, ← mul_assoc]
          generalize acc * 10 ^ (natDigsF f (n / 10)).length = B
          omega
        rw [harith]

theorem parseDigits_stop (acc : Nat) (rest : List Char) (h : restSafe rest) :
    parseDigits acc rest = (acc, rest) := by
  cases rest with
  | nil => rfl
  | cons c cs =>
    rw [parseDigits.eq_def]
    simp only [restSafe] at h
    simp [h]

theorem parseNatTok_natDigs (n : Nat) (rest : List Char) (h : restSafe rest) :
    parseNatTok (natDigs n ++ rest) = some (n, rest) := by
  rcases Nat.eq_zero_or_pos n with h0 | hpos
  · subst h0
    rw [parseNatTok.eq_def]
    simp [natDigs, natDigsF, digitChar10, parseDigits_stop _ _ h]
  · obtain ⟨d, tl, hd9, heq, h1⟩ := natDigsF_cons n (n + 1) (by omega)
    have hd1 : 1 ≤ d := h1 hpos
    have hne0 : digitChar10 d ≠ '0' := by
      have : ∀ d < 10, 1 ≤ d → digitChar10 d ≠ '0' := by decide
      rcases Nat.lt_or_ge d 10 with hlt | hge
      · exact this d hlt hd1
      · rw [digitChar10_of_ge d (by omega)]
        decide
    have hkey := parseDigits_natDigsF n (n + 1) 0 rest (by omega)
    rw [parseDigits_stop _ _ h] at hkey
    simp only [Nat.zero_mul, Nat.zero_add] at hkey
    unfold natDigs
    rw [heq] at hkey ⊢
    simp only [List.cons_append] at hkey ⊢
    rw [parseDigits.eq_def] at hkey
    simp only [digVal_digitChar10 d (by omega), Nat.zero_mul, Nat.zero_add] at hkey
    rw [parseNatTok.eq_def]
    simp [hne0, digVal_digitChar10 d (by omega), hkey]

/-- `parseIntTok` reads back a printed Python int exactly. -/
theorem parseIntTok_intChars (n : Int) (rest : List Char) (h : restSafe rest) :
    parseIntTok (intChars n ++ rest) = some (n, rest) := by
  by_cases hneg : n < 0
  · simp only [intChars, hneg, if_true, List.cons_append]
    rw [parseIntTok.eq_def]
    simp only [reduceIte, parseNatTok_natDigs n.natAbs rest h, Option.map_some']
    have h1 : ((n.natAbs : Int)) = -n := Int.ofNat_natAbs_of_nonpos (le_of_lt hneg)
    rw [h1, neg_neg]
  · simp only [intChars, hneg, if_false]
    obtain ⟨d, tl, hd9, heq, _⟩ := natDigsF_cons n.toNat (n.toNat + 1) (by omega)
    have hnm : ∀ d < 10, digitChar10 d ≠ '-' := by decide
    have hne : digitChar10 d ≠ '-' := hnm d (by omega)
    have hp := parseNatTok_natDigs n.toNat rest h
    unfold natDigs at hp ⊢
    rw [heq] at hp ⊢
    simp only [List.cons_append] at hp ⊢
    rw [parseIntTok.eq_def]
    simp only [hne, if_false, hp, Option.map_some']
    rw [Int.toNat_of_nonneg (Int.not_lt.mp hneg)]

/-- `printFields` output, followed by the object's closing line, is the
member wire text after the leading indentation. -/
theorem printFields_wire : ∀ (fs : List (String × J)) (ind : Nat) (rest : List Char),
    fs ≠ [] →
    printFields ind fs ++ '\n' :: (spacesC (ind - 2) ++ '\x7d' :: rest) =
      spacesC ind ++ membersWire ind rest fs := by
  intro fs
  induction fs with
  | nil => intro _ _ h; exact absurd rfl h
  | cons f fs' ih =>
    intro ind rest _
    obtain ⟨k, v⟩ := f
    cases fs' with
    | nil =>
      simp [printFields, membersWire, List.append_assoc]
    | cons f' fs'' =>
      simp only [printFields, membersWire, List.cons_append, List.append_assoc]
      rw [← ih ind rest (by simp)]

/-- A non-empty member wire starts with the first key's opening quote. -/
theorem membersWire_head (fs : List (String × J)) (ind : Nat) (rest : List Char)
    (k : String) (v : J) :
    ∃ tl, membersWire ind rest ((k, v) :: fs) = '"' :: tl := by
  cases fs with
  | nil => exact ⟨_, rfl⟩
  | cons f' fs'' => exact ⟨_, rfl⟩

theorem membersWire_length : ∀ (fs : List (String × J)) (ind : Nat) (rest : List Char),
    fs.length ≤ (membersWire ind rest fs).length := by
  intro fs
  induction fs with
  | nil => intro ind rest; simp [membersWire]
  | cons f fs' ih =>
    intro ind rest
    obtain ⟨k, v⟩ := f
    cases fs' with
    | nil =>
      simp [membersWire, quoteStr]
    | cons f' fs'' =>
      have h := ih ind rest
      simp only [membersWire, quoteStr, List.length_cons, List.length_append]
      simp only [List.length_cons] at h
      omega

theorem depthFields_mem : ∀ (fs : List (String × J)) (p : String × J), p ∈ fs →
    depthJ p.2 ≤ depthFields fs := by
  intro fs
  induction fs with
  | nil => intro p hp; simp at hp
  | cons f fs' ih =>
    intro p hp
    obtain ⟨k, v⟩ := f
    rcases List.mem_cons.mp hp with rfl | hp
    · exact le_max_left _ _
    · exact le_trans (ih p hp) (le_max_right _ _)

mutual

theorem depth_le_print (j : J) (ind : Nat) : depthJ j ≤ (printJ ind j).length := by
  match j with
  | .str s => simp [depthJ]
  | .int n => simp [depthJ]
  | .bool b => simp [depthJ]
  | .obj [] => simp [depthJ, depthFields, printJ]
  | .obj (f :: fs) =>
    have h := depthFields_le_print (f :: fs) (ind + 2)
    simp only [depthJ, printJ, List.length_cons, List.length_append]
    omega

theorem depthFields_le_print (fs : List (String × J)) (ind : Nat) :
    depthFields fs ≤ (printFields ind fs).length := by
  match fs with
  | [] => simp [depthFields, printFields]
  | [(k, v)] =>
    have h := depth_le_print v ind
    simp only [depthFields, printFields, List.length_append, List.length_cons,
      Nat.max_zero]
    omega
  | (k, v) :: f' :: fs'' =>
    have h1 := depth_le_print v ind
    have h2 := depthFields_le_print (f' :: fs'') ind
    simp only [depthFields] at h2
    simp only [depthFields, printFields, List.length_append, List.length_cons]
    omega

end

theorem parseValue_space (fuel : Nat) (l : List Char) :
    parseValue fuel (' ' :: l) = parseValue fuel l :=
  parseValue_skipWs fuel (' ' :: l) l rfl

/-- A printed JSON string is read back as one value, at any fuel. -/
theorem parseValue_str (fuel ind : Nat) (s : String) (tail : List Char) :
    parseValue fuel (printJ ind (.str s) ++ tail) = some (.str s, tail) := by
  have hw : printJ ind (.str s) ++ tail = '"' :: (escStr s.toList ++ '"' :: tail) := by
    simp [printJ, quoteStr, List.append_assoc]
  rw [hw, parseValue, skipWs_not _ _ (by decide), parseValueCore.eq_def]
  simp [strValue, parseStrBody_esc, show String.mk s.toList = s from rfl]

/-- A printed boolean is read back as one value, at any fuel. -/
theorem parseValue_bool (fuel ind : Nat) (b : Bool) (tail : List Char) :
    parseValue fuel (printJ ind (.bool b) ++ tail) = some (.bool b, tail) := by
  cases b
  · have hw : printJ ind (.bool false) ++ tail =
        'f' :: 'a' :: 'l' :: 's' :: 'e' :: tail := by
      simp [printJ]
    rw [hw, parseValue, skipWs_not _ _ (by decide), parseValueCore.eq_def]
    simp [falseValue]
  · have hw : printJ ind (.bool true) ++ tail = 't' :: 'r' :: 'u' :: 'e' :: tail := by
      simp [printJ]
    rw [hw, parseValue, skipWs_not _ _ (by decide), parseValueCore.eq_def]
    simp [trueValue]

/-- The first character of a printed integer is `-` or a digit: not JSON
whitespace and not the opening character of any other value form. -/
theorem intChars_head (n : Int) : ∃ c r, intChars n = c :: r ∧
    isJsonWs c = false ∧ ¬c = '"' ∧ ¬c = '\x7b' ∧ ¬c = 't' ∧ ¬c = 'f' := by
  by_cases hneg : n < 0
  · refine ⟨'-', natDigs n.natAbs, ?_, by decide, by decide, by decide, by decide,
      by decide⟩
    simp [intChars, hneg]
  · obtain ⟨d, tl, hd9, heq, _⟩ := natDigsF_cons n.toNat (n.toNat + 1) (Nat.lt_succ_self _)
    have hp : ∀ e, e ≤ 9 → isJsonWs (digitChar10 e) = false ∧ ¬digitChar10 e = '"' ∧
        ¬digitChar10 e = '\x7b' ∧ ¬digitChar10 e = 't' ∧ ¬digitChar10 e = 'f' := by decide
    obtain ⟨p1, p2, p3, p4, p5⟩ := hp d hd9
    refine ⟨digitChar10 d, tl, ?_, p1, p2, p3, p4, p5⟩
    simp only [intChars, hneg, if_false]
    exact heq

/-- A printed integer followed by a non-digit tail is read back as one value,
at any fuel. -/
theorem parseValue_int (fuel ind : Nat) (n : Int) (tail : List Char)
    (hs : restSafe tail) :
    parseValue fuel (printJ ind (.int n) ++ tail) = some (.int n, tail) := by
  obtain ⟨c, r, hc, hws, h1, h2, h3, h4⟩ := intChars_head n
  have htok : parseIntTok (c :: (r ++ tail)) = some (n, tail) := by
    have hcc : intChars n ++ tail = c :: (r ++ tail) := by rw [hc]; rfl
    rw [← hcc]
    exact parseIntTok_intChars n tail hs
  have hw : printJ ind (.int n) ++ tail = c :: (r ++ tail) := by
    simp only [printJ]
    rw [hc]
    rfl
  rw [hw, parseValue, skipWs_not _ _ hws, parseValueCore.eq_def]
  simp [h1, h2, h3, h4, intValue, htok]

/-- The member loop reads back a printed member list, given that the value
decoder at this fuel reads back every printed value. -/
theorem parseMembers_wire (fuel : Nat)
    (hP : ∀ (v : J) (ind : Nat) (tail : List Char), depthJ v ≤ fuel → restSafe tail →
      parseValue fuel (printJ ind v ++ tail) = some (v, tail)) :
    ∀ (fs : List (String × J)) (mfuel : Nat) (ind : Nat) (tail : List Char), fs ≠ [] →
      depthFields fs ≤ fuel → fs.length ≤ mfuel → restSafe tail →
      parseMembers fuel mfuel (membersWire ind tail fs) = some (fs, tail) := by
  intro fs
  induction fs with
  | nil => intro _ _ _ hne _ _ _; exact absurd rfl hne
  | cons f fs' ih =>
    intro mfuel ind tail hne hdep hlen hsafe
    obtain ⟨k, v⟩ := f
    match mfuel with
    | 0 => simp at hlen
    | mfuel' + 1 =>
      have hdv : depthJ v ≤ fuel := by
        simp only [depthFields] at hdep
        omega
      have hsA : ∀ l : List Char, skipWs (':' :: l) = ':' :: l :=
        fun l => skipWs_not _ _ (by decide)
      cases fs' with
      | nil =>
        have hv1 : parseValueCore fuel (skipWs
            (' ' :: (printJ ind v ++ '\n' :: (spacesC (ind - 2) ++ '\x7d' :: tail)))) =
            some (v, '\n' :: (spacesC (ind - 2) ++ '\x7d' :: tail)) := by
          show parseValue fuel
            (' ' :: (printJ ind v ++ '\n' :: (spacesC (ind - 2) ++ '\x7d' :: tail))) = _
          rw [parseValue_space]
          exact hP v ind _ hdv (by show digVal '\n' = none; decide)
        have hs2 : skipWs ('\n' :: (spacesC (ind - 2) ++ '\x7d' :: tail)) =
            '\x7d' :: tail := by
          show skipWs (spacesC (ind - 2) ++ '\x7d' :: tail) = _
          rw [skipWs_spacesC]
          exact skipWs_not _ _ (by decide)
        have hw : membersWire ind tail [(k, v)] =
            '"' :: (escStr k.toList ++ '"' :: (':' :: ' ' ::
              (printJ ind v ++ '\n' :: (spacesC (ind - 2) ++ '\x7d' :: tail)))) := by
          simp [membersWire, quoteStr, List.append_assoc]
        rw [hw, parseMembers]
        simp [parseMembersGo, parseStrBody_esc, hsA, hv1, hs2,
          show String.mk k.toList = k from rfl]
      | cons f' fs'' =>
        obtain ⟨k', v'⟩ := f'
        have hdep' : depthFields ((k', v') :: fs'') ≤ fuel := by
          simp only [depthFields] at hdep ⊢
          omega
        have hlen' : ((k', v') :: fs'').length ≤ mfuel' := by
          simp only [List.length_cons] at hlen ⊢
          omega
        have hrec : parseMembersGo (fun l' => parseValueCore fuel (skipWs l')) mfuel'
            (membersWire ind tail ((k', v') :: fs'')) =
            some ((k', v') :: fs'', tail) :=
          ih mfuel' ind tail (by simp) hdep' hlen' hsafe
        obtain ⟨tl, htl⟩ := membersWire_head fs'' ind tail k' v'
        have hv1 : parseValueCore fuel (skipWs
            (' ' :: (printJ ind v ++ ',' :: '\n' ::
              (spacesC ind ++ membersWire ind tail ((k', v') :: fs''))))) =
            some (v, ',' :: '\n' ::
              (spacesC ind ++ membersWire ind tail ((k', v') :: fs''))) := by
          show parseValue fuel
            (' ' :: (printJ ind v ++ ',' :: '\n' ::
              (spacesC ind ++ membersWire ind tail ((k', v') :: fs'')))) = _
          rw [parseValue_space]
          exact hP v ind _ hdv (by show digVal ',' = none; decide)
        have hs3 : skipWs ('\n' ::
              (spacesC ind ++ membersWire ind tail ((k', v') :: fs''))) =
            membersWire ind tail ((k', v') :: fs'') := by
          show skipWs (spacesC ind ++ membersWire ind tail ((k', v') :: fs'')) = _
          rw [skipWs_spacesC, htl]
          exact skipWs_not _ _ (by decide)
        have hsB : ∀ l : List Char, skipWs (',' :: l) = ',' :: l :=
          fun l => skipWs_not _ _ (by decide)
        have hw : membersWire ind tail ((k, v) :: (k', v') :: fs'') =
            '"' :: (escStr k.toList ++ '"' :: (':' :: ' ' ::
              (printJ ind v ++ ',' :: '\n' ::
                (spacesC ind ++ membersWire ind tail ((k', v') :: fs''))))) := by
          simp [membersWire, quoteStr, List.append_assoc]
        rw [hw, parseMembers]
        simp [parseMembersGo, parseStrBody_esc, hsA, hsB, hv1, hs3, hrec,
          show String.mk k.toList = k from rfl]

/-- The printer is inverted by the parser: any printed value followed by a
non-digit tail is read back exactly, given fuel at least the nesting depth. -/
theorem parseValue_print : ∀ (fuel : Nat) (v : J) (ind : Nat) (tail : List Char),
    depthJ v ≤ fuel → restSafe tail →
    parseValue fuel (printJ ind v ++ tail) = some (v, tail) := by
  intro fuel
  induction fuel with
  | zero =>
    intro v ind tail hd hs
    match v with
    | .str s => exact parseValue_str 0 ind s tail
    | .int n => exact parseValue_int 0 ind n tail hs
    | .bool b => exact parseValue_bool 0 ind b tail
    | .obj fs =>
      refine absurd hd ?_
      simp only [depthJ]
      omega
  | succ fuel' ih =>
    intro v ind tail hd hs
    match v with
    | .str s => exact parseValue_str (fuel' + 1) ind s tail
    | .int n => exact parseValue_int (fuel' + 1) ind n tail hs
    | .bool b => exact parseValue_bool (fuel' + 1) ind b tail
    | .obj [] =>
      have hw : printJ ind (.obj []) ++ tail = '\x7b' :: '\x7d' :: tail := by
        simp [printJ]
      rw [hw, parseValue, skipWs_not _ _ (by decide), parseValueCore.eq_def]
      simp [objValue, skipWs_not '\x7d' tail (by decide)]
    | .obj (f :: fs) =>
      obtain ⟨k, v⟩ := f
      have hwire := printFields_wire ((k, v) :: fs) (ind + 2) tail (by simp)
      rw [show ind + 2 - 2 = ind from by omega] at hwire
      obtain ⟨tl, htl⟩ := membersWire_head fs (ind + 2) tail k v
      have hlen := membersWire_length ((k, v) :: fs) (ind + 2) tail
      have hdep : depthFields ((k, v) :: fs) ≤ fuel' := by
        simp only [depthJ] at hd
        omega
      have hmem := parseMembers_wire fuel' ih ((k, v) :: fs)
        ((membersWire (ind + 2) tail ((k, v) :: fs)).length) (ind + 2) tail
        (by simp) hdep hlen hs
      have hw : printJ ind (.obj ((k, v) :: fs)) ++ tail =
          '\x7b' :: '\n' ::
            (spacesC (ind + 2) ++ membersWire (ind + 2) tail ((k, v) :: fs)) := by
        simp only [printJ, List.cons_append, List.append_assoc, List.singleton_append]
        rw [← hwire]
        simp [List.append_assoc]
      have hsk : skipWs ('\n' ::
            (spacesC (ind + 2) ++ membersWire (ind + 2) tail ((k, v) :: fs))) =
          '"' :: tl := by
        show skipWs (spacesC (ind + 2) ++ membersWire (ind + 2) tail ((k, v) :: fs)) = _
        rw [skipWs_spacesC, htl]
        exact skipWs_not _ _ (by decide)
      rw [htl] at hmem
      simp only [List.length_cons] at hmem
      have hmem2 : parseMembersGo (fun l => parseValueCore fuel' (skipWs l))
          (tl.length + 1) ('"' :: tl) = some ((k, v) :: fs, tail) := hmem
      rw [hw, parseValue, skipWs_not _ _ (by decide), parseValueCore.eq_def]
      simp [objValue, hsk, hmem2]

/-- `json.loads` inverts `json.dumps` on the value language the script
writes. -/
theorem json_roundtrip (j : J) : json_loads (json_dumps j) = some j := by
  have hd : depthJ j ≤ (printJ 0 j).length + 1 :=
    le_trans (depth_le_print j 0) (Nat.le_succ _)
  have h := parseValue_print ((printJ 0 j).length + 1) j 0 [] hd trivial
  rw [List.append_nil] at h
  unfold json_loads json_dumps
  rw [show (String.mk (printJ 0 j)).toList = printJ 0 j from rfl,
    show (String.mk (printJ 0 j)).length = (printJ 0 j).length from rfl, h]
  rfl

/-! ## Entry shapes (claim C2) -/

/-- A hash-mode shaped entry: `hash` present, `found` absent. -/
def hashShaped (e : Entry) : Prop := e.hash.isSome ∧ e.found = none

/-- A keyword-mode shaped entry: `found` present, no `hash`/`text`. -/
def keywordShaped (e : Entry) : Prop := e.found.isSome ∧ e.hash = none ∧ e.text = none

/-! ## Helper lemmas -/

theorem stateGet_not_has : ∀ (st : List (String × Entry)) (url : String),
    stateHas st url = false → stateGet st url = {} := by
  intro st
  induction st with
  | nil => intro url _; rfl
  | cons p rest ih =>
    intro url h
    obtain ⟨k, e⟩ := p
    simp only [stateHas, Bool.or_eq_false_iff, beq_eq_false_iff_ne] at h
    simp only [stateGet, h.1, if_false]
    exact ih url h.2

/-- Field bookkeeping of the keyword branch: the written entry always has a
`found` value; `hash`/`text` are dropped on first-seen and otherwise carried
over; first-seen writes the fresh baseline with no message. -/
theorem processKeyword_fields (kw text : String) (now cooldown : Int) (e : Entry) :
    ((processKeyword kw text now cooldown e).1.hash =
      if e.found = none then none else e.hash) ∧
    ((processKeyword kw text now cooldown e).1.text =
      if e.found = none then none else e.text) ∧
    (processKeyword kw text now cooldown e).1.found.isSome = true ∧
    (e.found = none → processKeyword kw text now cooldown e =
      ({ found := some (pyIn kw text), ts := some now }, none)) := by
  cases hf : e.found with
  | none => simp [processKeyword, hf]
  | some pf =>
    by_cases hch : pyIn kw text = pf
    · simp [processKeyword, hf, hch]
    · simp only [processKeyword, hf, ne_eq, hch, not_false_iff, if_true]
      split <;> simp [hf]

/-- Field bookkeeping of the hash branch: the written entry always has a
`hash` value; `found` is dropped on first-seen and otherwise carried over;
first-seen writes the fresh baseline with no message. -/
theorem processHash_fields (text : String) (now cooldown : Int) (e : Entry) :
    ((processHash text now cooldown e).1.found =
      if e.hash = none then none else e.found) ∧
    (processHash text now cooldown e).1.hash.isSome = true ∧
    (e.hash = none → processHash text now cooldown e =
      ({ hash := some (sha256 text), text := some (clamp_text text), ts := some now },
        none)) := by
  cases hh : e.hash with
  | none => simp [processHash, hh]
  | some p =>
    by_cases hch : sha256 text = p
    · simp [processHash, hh, hch]
    · simp only [processHash, hh, ne_eq, hch, not_false_iff, if_true]
      split <;> simp [hh]

theorem runAll_append (fetch : Watch → Except String String) (now cooldown : Int) :
    ∀ (ws₁ ws₂ : List Watch) (s : List (String × Entry)),
      runAll fetch now cooldown (ws₁ ++ ws₂) s =
        ((runAll fetch now cooldown ws₂ (runAll fetch now cooldown ws₁ s).1).1,
         (runAll fetch now cooldown ws₁ s).2.1 ++
           (runAll fetch now cooldown ws₂ (runAll fetch now cooldown ws₁ s).1).2.1,
         (runAll fetch now cooldown ws₁ s).2.2 ++
           (runAll fetch now cooldown ws₂ (runAll fetch now cooldown ws₁ s).1).2.2) := by
  intro ws₁
  induction ws₁ with
  | nil => intro ws₂ s; simp [runAll]
  | cons w ws ih =>
    intro ws₂ s
    simp only [List.cons_append, runAll]
    rw [show ws.append ws₂ = ws ++ ws₂ from rfl, ih ws₂ (runTarget fetch now cooldown w s).1]
    simp [List.append_assoc]

/-! ## The claims -/

/-- C4 (counterexample): the claim says that when `last_alert_ts` is present,
`should_alert_now` returns true exactly when the elapsed time reaches the
cooldown — but a stored `last_alert_ts` of `0` is falsy in Python
(`if not last_alert_ts`), so with `last_alert_ts = 0`, `now = 0` and
`cooldown = 5` the elapsed time `0` is below the cooldown yet the function
returns true. -/
theorem C4_counterexample :
    should_alert_now 0 5 { last_alert_ts := some 0 } = true ∧ ¬((5 : Int) ≤ 0 - 0) := by
  exact ⟨rfl, by decide⟩

/-- C4 (amended): `should_alert_now` returns true iff `last_alert_ts` is
absent, or is stored as `0` (Python falsiness), or the elapsed time
`now - last_alert_ts` is at least the cooldown. -/
theorem C4_should_alert_amended (now cooldown : Int) (e : Entry) :
    should_alert_now now cooldown e = true ↔
      (e.last_alert_ts = none ∨ e.last_alert_ts = some 0 ∨
        ∃ t, e.last_alert_ts = some t ∧ cooldown ≤ now - t) := by
  cases hl : e.last_alert_ts with
  | none => simp [should_alert_now, hl]
  | some t =>
    by_cases h0 : t = 0
    · subst h0
      simp [should_alert_now, hl]
    · simp only [should_alert_now, hl, h0, if_false, decide_eq_true_eq,
        Option.some.injEq]
      constructor
      · intro h
        exact Or.inr (Or.inr ⟨t, rfl, h⟩)
      · intro h
        rcases h with h | h | ⟨t', ht', hc⟩
        · exact absurd h (by simp)
        · exact absurd h (by simp [h0])
        · cases ht'
          exact hc

/-- C5: with no prior state entry for the URL, the first successful
observation stores a baseline (hash plus clamped text in hash mode, the
found flag in keyword mode, with `ts = now`) and emits no change message and
no `last_alert_ts`, in either mode. -/
theorem C5_first_observation_baseline (st : List (String × Entry)) (url : String)
    (kw text : String) (now cooldown : Int) (h : stateHas st url = false) :
    processKeyword kw text now cooldown (stateGet st url) =
        ({ found := some (pyIn kw text), ts := some now }, none) ∧
      processHash text now cooldown (stateGet st url) =
        ({ hash := some (sha256 text), text := some (clamp_text text), ts := some now },
          none) := by
  rw [stateGet_not_has st url h]
  exact ⟨rfl, rfl⟩

theorem C5_witness :
    stateHas [] "https://e.x/" = false ∧
      (processKeyword "a" "b" 3 0 (stateGet [] "https://e.x/") =
          ({ found := some (pyIn "a" "b"), ts := some 3 }, none) ∧
        processHash "b" 3 0 (stateGet [] "https://e.x/") =
          ({ hash := some (sha256 "b"), text := some (clamp_text "b"), ts := some 3 },
            none)) :=
  ⟨rfl, C5_first_observation_baseline [] "https://e.x/" "a" "b" 3 0 rfl⟩

/-- C6: when the new observation equals the stored one (same keyword
containment, or same hash), the detector takes the unchanged branch: no
change message, `ts` advances to `now`, and every other field of the entry
(hash/found, text, last_alert_ts) is untouched. -/
theorem C6_unchanged_frame (kw text : String) (now cooldown : Int) (e : Entry) :
    (e.found = some (pyIn kw text) →
      processKeyword kw text now cooldown e = ({ e with ts := some now }, none)) ∧
    (e.hash = some (sha256 text) →
      processHash text now cooldown e = ({ e with ts := some now }, none)) := by
  constructor
  · intro hf
    simp [processKeyword, hf]
  · intro hh
    simp [processHash, hh]

theorem C6_witness :
    processKeyword "a" "ab" 7 0
        { hash := some (sha256 "ab"), found := some true, ts := some 0 } =
      ({ hash := some (sha256 "ab"), found := some true, ts := some 7 }, none) ∧
    processHash "ab" 7 0
        { hash := some (sha256 "ab"), found := some true, ts := some 0 } =
      ({ hash := some (sha256 "ab"), found := some true, ts := some 7 }, none) := by
  have h := C6_unchanged_frame "a" "ab" 7 0
    { hash := some (sha256 "ab"), found := some true, ts := some 0 }
  exact ⟨h.1 (by decide), h.2 rfl⟩

/-- C3: a changed observation whose alert is suppressed by the cooldown gate
still advances the stored `found`/`hash` (and stored clamped text in hash
mode) and `ts`, while emitting no change message and leaving
`last_alert_ts` (and every other field) unchanged. -/
theorem C3_suppressed_alert_frame (kw text : String) (now cooldown : Int) (e : Entry) :
    (∀ pf, e.found = some pf → pf ≠ pyIn kw text →
      should_alert_now now cooldown e = false →
      processKeyword kw text now cooldown e =
        ({ e with found := some (pyIn kw text), ts := some now }, none)) ∧
    (∀ p, e.hash = some p → p ≠ sha256 text →
      should_alert_now now cooldown e = false →
      processHash text now cooldown e =
        ({ e with
            hash := some (sha256 text)
            text := some (clamp_text text)
            ts := some now }, none)) := by
  constructor
  · intro pf hf hne halert
    simp [processKeyword, hf, Ne.symm hne, halert]
  · intro p hh hne halert
    simp [processHash, hh, Ne.symm hne, halert]

theorem C3_witness :
    (should_alert_now 6 10
        { found := some true, hash := some "old", text := some "x", ts := some 0,
          last_alert_ts := some 5 } = false) ∧
    processKeyword "a" "zzz" 6 10
        { found := some true, hash := some "old", text := some "x", ts := some 0,
          last_alert_ts := some 5 } =
      ({ found := some (pyIn "a" "zzz"), hash := some "old", text := some "x",
          ts := some 6, last_alert_ts := some 5 }, none) ∧
    processHash "zzz" 6 10
        { found := some true, hash := some "old", text := some "x", ts := some 0,
          last_alert_ts := some 5 } =
      ({ found := some true, hash := some (sha256 "zzz"),
          text := some (clamp_text "zzz"), ts := some 6, last_alert_ts := some 5 },
        none) := by
  have h := C3_suppressed_alert_frame "a" "zzz" 6 10
    { found := some true, hash := some "old", text := some "x", ts := some 0,
      last_alert_ts := some 5 }
  exact ⟨by decide, h.1 true rfl (by decide) (by decide),
    h.2 "old" rfl (by decide) (by decide)⟩

/-- C7: `processHash` always computes the stored/compared hash from the full
(unclamped) normalized text; whenever it writes the text field (baseline or
changed branch) it writes the clamped copy; and the emitted diff, when one is
emitted, is `make_diff` of the previously stored text against the full
current text. -/
theorem C7_full_text_hash_and_diff (text : String) (now cooldown : Int) (e : Entry) :
    (processHash text now cooldown e).1.hash = some (sha256 text) ∧
    (e.hash = none →
      (processHash text now cooldown e).1.text = some (clamp_text text) ∧
      (processHash text now cooldown e).2 = none) ∧
    (∀ p, e.hash = some p → p ≠ sha256 text →
      (processHash text now cooldown e).1.text = some (clamp_text text) ∧
      (processHash text now cooldown e).2 =
        (if should_alert_now now cooldown e then
          some (make_diff (e.text.getD "") text)
        else none)) := by
  refine ⟨?_, ?_, ?_⟩
  · cases hh : e.hash with
    | none => simp [processHash, hh]
    | some p =>
      by_cases hne : sha256 text = p
      · simp [processHash, hh, hne]
      · simp [processHash, hh, hne]
  · intro hh
    simp [processHash, hh]
  · intro p hh hne
    have hne' : sha256 text ≠ p := fun hc => hne (hc ▸ rfl)
    simp [processHash, hh, hne']

theorem C7_witness :
    ((some (sha256 "b") : Option String) = some (sha256 "b") ∧ sha256 "b" ≠ sha256 "a") ∧
    ((processHash "a" 4 0 { hash := some (sha256 "b"), text := some "old" }).1.hash =
        some (sha256 "a") ∧
      (processHash "a" 4 0 { hash := some (sha256 "b"), text := some "old" }).1.text =
        some (clamp_text "a") ∧
      (processHash "a" 4 0 { hash := some (sha256 "b"), text := some "old" }).2 =
        (if should_alert_now 4 0 { hash := some (sha256 "b"), text := some "old" } then
          some (make_diff "old" "a")
        else none)) := by
  have h := C7_full_text_hash_and_diff "a" 4 0 { hash := some (sha256 "b"), text := some "old" }
  have h3 := h.2.2 (sha256 "b") rfl (by decide)
  exact ⟨⟨rfl, by decide⟩, ⟨h.1, h3.1, h3.2⟩⟩

/-- C2: starting from a well-shaped (or absent) entry, the entry written by a
successful observation is shaped for the watch's current mode (exactly one of
the `hash`/`found` field groups is populated, the storage type itself keeping
the fields independent); and when the current mode's key is absent from the
stored entry — in particular after a mode switch — the observation is treated
as first-seen for the new mode's key: a fresh baseline entry with no change
message. -/
theorem C2_mode_shape (w : Watch) (text : String) (now cooldown : Int)
    (e e' : Entry) (msg : Option String)
    (hInv : e = {} ∨ hashShaped e ∨ keywordShaped e)
    (hstep : stepEntry w text now cooldown e = .ok (e', msg)) :
    (if w.mode == "keyword" then keywordShaped e' else hashShaped e') ∧
    ((w.mode == "keyword") = true → e.found = none →
      msg = none ∧ e' = { found := some (pyIn (w.keyword.getD "") text), ts := some now }) ∧
    ((w.mode == "keyword") = false → e.hash = none →
      msg = none ∧
        e' = { hash := some (sha256 text)
               text := some (clamp_text text)
               ts := some now }) := by
  by_cases hmode : (w.mode == "keyword") = true
  · -- keyword branch
    obtain ⟨kw, hkw, hpk⟩ : ∃ kw, w.keyword = some kw ∧
        processKeyword kw text now cooldown e = (e', msg) := by
      simp only [stepEntry, hmode, if_true] at hstep
      cases hkw : w.keyword with
      | none =>
        simp only [hkw] at hstep
        exact absurd hstep (by simp)
      | some kw =>
        simp only [hkw] at hstep
        by_cases h0 : (kw == "") = true
        · simp only [h0, if_true] at hstep
          exact absurd hstep (by simp)
        · simp only [h0, if_false, Bool.false_eq_true] at hstep
          exact ⟨kw, rfl, by injection hstep⟩
    have he' : (processKeyword kw text now cooldown e).1 = e' := congrArg Prod.fst hpk
    have hmsg : (processKeyword kw text now cooldown e).2 = msg := congrArg Prod.snd hpk
    have hfld := processKeyword_fields kw text now cooldown e
    refine ⟨?_, ?_, ?_⟩
    · rw [hmode, if_pos rfl]
      refine ⟨?_, ?_, ?_⟩
      · rw [← he']
        exact hfld.2.2.1
      · rw [← he', hfld.1]
        split
        · rfl
        · next hfnd =>
          rcases hInv with rfl | hh | hk
          · exact absurd rfl hfnd
          · exact absurd hh.2 hfnd
          · exact hk.2.1
      · rw [← he', hfld.2.1]
        split
        · rfl
        · next hfnd =>
          rcases hInv with rfl | hh | hk
          · exact absurd rfl hfnd
          · exact absurd hh.2 hfnd
          · exact hk.2.2
    · intro _ hfnd
      have hbase := hfld.2.2.2 hfnd
      rw [hbase] at hpk
      rw [hkw]
      injection hpk with h₁ h₂
      exact ⟨h₂.symm, h₁.symm⟩
    · intro hfalse
      rw [hmode] at hfalse
      exact absurd hfalse (by simp)
  · -- hash branch (any mode other than "keyword")
    have hmode' : (w.mode == "keyword") = false := by
      cases hb : (w.mode == "keyword") with
      | false => rfl
      | true => exact absurd hb hmode
    have hph : processHash text now cooldown e = (e', msg) := by
      simp only [stepEntry, hmode', Bool.false_eq_true, if_false] at hstep
      injection hstep
    have he' : (processHash text now cooldown e).1 = e' := congrArg Prod.fst hph
    have hfld := processHash_fields text now cooldown e
    refine ⟨?_, ?_, ?_⟩
    · rw [hmode', if_neg (by simp)]
      refine ⟨?_, ?_⟩
      · rw [← he']
        exact hfld.2.1
      · rw [← he', hfld.1]
        split
        · rfl
        · next hhsh =>
          rcases hInv with rfl | hh | hk
          · exact absurd rfl hhsh
          · exact hh.2
          · exact absurd hk.2.1 hhsh
    · intro htrue
      rw [hmode'] at htrue
      exact absurd htrue (by simp)
    · intro _ hhsh
      have hbase := hfld.2.2 hhsh
      rw [hbase] at hph
      injection hph with h₁ h₂
      exact ⟨h₂.symm, h₁.symm⟩

theorem C2_witness :
    ((({ hash := some "h", text := some "t", ts := some 0 } : Entry) = {} ∨
        hashShaped { hash := some "h", text := some "t", ts := some 0 } ∨
        keywordShaped { hash := some "h", text := some "t", ts := some 0 }) ∧
      stepEntry { mode := "keyword", keyword := some "k" } "x" 2 0
          { hash := some "h", text := some "t", ts := some 0 } =
        .ok ({ found := some (pyIn "k" "x"), ts := some 2 }, none)) ∧
    ((if ({ mode := "keyword", keyword := some "k" } : Watch).mode == "keyword" then
        keywordShaped { found := some (pyIn "k" "x"), ts := some 2 }
      else hashShaped { found := some (pyIn "k" "x"), ts := some 2 }) ∧
      ((({ mode := "keyword", keyword := some "k" } : Watch).mode == "keyword") = true →
        ({ hash := some "h", text := some "t", ts := some 0 } : Entry).found = none →
        (none : Option String) = none ∧
          ({ found := some (pyIn "k" "x"), ts := some 2 } : Entry) =
            { found := some (pyIn (({ mode := "keyword", keyword := some "k" } :
                Watch).keyword.getD "") "x"), ts := some 2 }) ∧
      ((({ mode := "keyword", keyword := some "k" } : Watch).mode == "keyword") = false →
        ({ hash := some "h", text := some "t", ts := some 0 } : Entry).hash = none →
        (none : Option String) = none ∧
          ({ found := some (pyIn "k" "x"), ts := some 2 } : Entry) =
            { hash := some (sha256 "x")
              text := some (clamp_text "x")
              ts := some 2 })) :=
  ⟨⟨Or.inr (Or.inl ⟨rfl, rfl⟩), rfl⟩,
    C2_mode_shape { mode := "keyword", keyword := some "k" } "x" 2 0
      { hash := some "h", text := some "t", ts := some 0 }
      { found := some (pyIn "k" "x"), ts := some 2 } none
      (Or.inr (Or.inl ⟨rfl, rfl⟩)) rfl⟩

/-- C8: a configuration failing validation (falsy notification topic, zero
watches, or more than 50 watches) aborts the run with the corresponding
`SystemExit` message (a non-zero exit) before any use of the fetch oracle —
the same error results for every fetch oracle, shuffle and prior state — and
nothing reaches `save_json`. -/
theorem C8_validation_aborts (cfg : Config)
    (h : pyFalsyStrOpt cfg.ntfy_topic = true ∨ cfg.watches = [] ∨
      50 < cfg.watches.length) :
    ∃ msg, ∀ (state0 : List (String × Entry)) (shuffle : List Watch → List Watch)
        (fetch : Watch → Except String String) (now cooldown : Int),
      mainModel cfg state0 shuffle fetch now cooldown = .error msg ∧
      savedState (mainModel cfg state0 shuffle fetch now cooldown) = none := by
  have hv : ∃ m, validateConfig cfg = some m := by
    unfold validateConfig
    split
    · exact ⟨_, rfl⟩
    · split
      · exact ⟨_, rfl⟩
      · split
        · exact ⟨_, rfl⟩
        · next h₁ h₂ h₃ =>
          rcases h with h | h | h
          · exact absurd h h₁
          · refine absurd ?_ h₂
            rw [h]
            rfl
          · exact absurd h h₃
  obtain ⟨m, hm⟩ := hv
  refine ⟨m, fun state0 shuffle fetch now cooldown => ?_⟩
  unfold mainModel
  rw [hm]
  exact ⟨rfl, rfl⟩

/-- A 51-watch configuration used by the C8 witness. -/
def c8cfg : Config := { ntfy_topic := some "t", watches := List.replicate 51 {} }

theorem C8_witness :
    (pyFalsyStrOpt c8cfg.ntfy_topic = true ∨ c8cfg.watches = [] ∨
      50 < c8cfg.watches.length) ∧
    (∃ msg, ∀ (state0 : List (String × Entry)) (shuffle : List Watch → List Watch)
        (fetch : Watch → Except String String) (now cooldown : Int),
      mainModel c8cfg state0 shuffle fetch now cooldown = .error msg ∧
      savedState (mainModel c8cfg state0 shuffle fetch now cooldown) = none) :=
  ⟨Or.inr (Or.inr (by decide)),
    C8_validation_aborts c8cfg (Or.inr (Or.inr (by decide)))⟩

/-- C9: once validation passes, the run completes with exit code 0 whatever
the per-target outcomes are; and a target whose processing fails (fetch
error, or keyword mode without a keyword) contributes exactly its one error
record at its position, while the state and the changes — including those of
all targets after it — are exactly those of the run without the failing
target. -/
theorem C9_per_target_isolation (cfg : Config) (state0 : List (String × Entry))
    (shuffle : List Watch → List Watch) (fetch : Watch → Except String String)
    (now cooldown : Int) (wf : Watch) (emsg : String)
    (hval : validateConfig cfg = none)
    (hfail : ∀ s, runTarget fetch now cooldown wf s = (s, none, some (wf, emsg))) :
    (∃ r, mainModel cfg state0 shuffle fetch now cooldown = .ok r ∧ r.exitCode = 0) ∧
    (∀ (ws₁ ws₂ : List Watch) (s : List (String × Entry)),
      runAll fetch now cooldown (ws₁ ++ wf :: ws₂) s =
        ((runAll fetch now cooldown ws₂ (runAll fetch now cooldown ws₁ s).1).1,
         (runAll fetch now cooldown ws₁ s).2.1 ++
           (runAll fetch now cooldown ws₂ (runAll fetch now cooldown ws₁ s).1).2.1,
         (runAll fetch now cooldown ws₁ s).2.2 ++ (wf, emsg) ::
           (runAll fetch now cooldown ws₂ (runAll fetch now cooldown ws₁ s).1).2.2)) := by
  constructor
  · unfold mainModel
    rw [hval]
    exact ⟨_, rfl, rfl⟩
  · intro ws₁ ws₂ s
    rw [runAll_append fetch now cooldown ws₁ (wf :: ws₂) s]
    have hstep : runAll fetch now cooldown (wf :: ws₂) (runAll fetch now cooldown ws₁ s).1 =
        ((runAll fetch now cooldown ws₂ (runAll fetch now cooldown ws₁ s).1).1,
         (runAll fetch now cooldown ws₂ (runAll fetch now cooldown ws₁ s).1).2.1,
         (wf, emsg) ::
           (runAll fetch now cooldown ws₂ (runAll fetch now cooldown ws₁ s).1).2.2) := by
      simp only [runAll, hfail]
      rfl
    rw [hstep]

/-- The single-watch configuration, watch and failing fetch oracle used by
the C9 witness. -/
def c9watch : Watch := { url := "u" }

def c9cfg : Config := { ntfy_topic := some "t", watches := [c9watch] }

def c9fetch : Watch → Except String String := fun _ => .error "HTTPError: boom"

theorem C9_witness :
    (validateConfig c9cfg = none ∧
      ∀ s, runTarget c9fetch 5 0 c9watch s = (s, none, some (c9watch, "HTTPError: boom"))) ∧
    ((∃ r, mainModel c9cfg [] id c9fetch 5 0 = .ok r ∧ r.exitCode = 0) ∧
      (∀ (ws₁ ws₂ : List Watch) (s : List (String × Entry)),
        runAll c9fetch 5 0 (ws₁ ++ c9watch :: ws₂) s =
          ((runAll c9fetch 5 0 ws₂ (runAll c9fetch 5 0 ws₁ s).1).1,
           (runAll c9fetch 5 0 ws₁ s).2.1 ++
             (runAll c9fetch 5 0 ws₂ (runAll c9fetch 5 0 ws₁ s).1).2.1,
           (runAll c9fetch 5 0 ws₁ s).2.2 ++ (c9watch, "HTTPError: boom") ::
             (runAll c9fetch 5 0 ws₂ (runAll c9fetch 5 0 ws₁ s).1).2.2))) :=
  ⟨⟨rfl, fun s => rfl⟩,
    C9_per_target_isolation c9cfg [] id c9fetch 5 0 c9watch "HTTPError: boom"
      rfl (fun s => rfl)⟩


/-! ## Lemmas for claim C1: no line of a unified diff equals the marker -/

theorem mem_opLines_head (a b : Array String) (c : Op) :
    ∀ x ∈ opLines a b c,
      x.data.head? = some ' ' ∨ x.data.head? = some '-' ∨ x.data.head? = some '+' := by
  intro x hx
  unfold opLines at hx
  split at hx
  · obtain ⟨l, _, rfl⟩ := List.mem_map.mp hx
    exact Or.inl (by simp [String.data_append])
  · rcases List.mem_append.mp hx with hx | hx
    · split at hx
      · obtain ⟨l, _, rfl⟩ := List.mem_map.mp hx
        exact Or.inr (Or.inl (by simp [String.data_append]))
      · simp at hx
    · split at hx
      · obtain ⟨l, _, rfl⟩ := List.mem_map.mp hx
        exact Or.inr (Or.inr (by simp [String.data_append]))
      · simp at hx

theorem mem_hunkBody_head (a b : Array String) :
    ∀ (g : List Op), ∀ x ∈ hunkBody a b g,
      x.data.head? = some ' ' ∨ x.data.head? = some '-' ∨ x.data.head? = some '+' := by
  intro g
  induction g with
  | nil => intro x hx; simp [hunkBody] at hx
  | cons c rest ih =>
    intro x hx
    simp only [hunkBody] at hx
    rcases List.mem_append.mp hx with hx | hx
    · exact mem_opLines_head a b c x hx
    · exact ih x hx

theorem mem_hunkLines_head (a b : Array String) (g : List Op) :
    ∀ x ∈ hunkLines a b g,
      x.data.head? = some '@' ∨ x.data.head? = some ' ' ∨ x.data.head? = some '-' ∨
        x.data.head? = some '+' := by
  intro x hx
  unfold hunkLines at hx
  split at hx
  · simp at hx
  · rcases List.mem_cons.mp hx with rfl | hx
    · exact Or.inl (by simp [String.data_append])
    · rcases mem_hunkBody_head a b _ x hx with h | h | h
      · exact Or.inr (Or.inl h)
      · exact Or.inr (Or.inr (Or.inl h))
      · exact Or.inr (Or.inr (Or.inr h))

theorem mem_unifiedDiffGroups_head (a b : Array String) :
    ∀ (gs : List (List Op)), ∀ x ∈ unifiedDiffGroups a b gs,
      x.data.head? = some '@' ∨ x.data.head? = some ' ' ∨ x.data.head? = some '-' ∨
        x.data.head? = some '+' := by
  intro gs
  induction gs with
  | nil => intro x hx; simp [unifiedDiffGroups] at hx
  | cons g rest ih =>
    intro x hx
    simp only [unifiedDiffGroups] at hx
    rcases List.mem_append.mp hx with hx | hx
    · exact mem_hunkLines_head a b g x hx
    · exact ih x hx

/-- Every line a unified diff emits starts with `@`, a space, `-` or `+`;
the truncation marker starts with `.`, so no raw diff line equals it. -/
theorem unifiedDiff_no_marker (a b : Array String) :
    ∀ x ∈ unifiedDiff a b, x ≠ truncMarker := by
  intro x hx
  unfold unifiedDiff at hx
  split at hx
  · simp at hx
  · rcases List.mem_cons.mp hx with heq | hx
    · subst heq; decide
    · rcases List.mem_cons.mp hx with heq | hx
      · subst heq; decide
      · intro hcon
        have h := mem_unifiedDiffGroups_head a b _ x hx
        rw [hcon] at h
        rcases h with h | h | h | h <;> exact absurd h (by decide)

/-- The shape of the `make_diff` truncation (lines 99-105). -/
theorem truncateDiff_spec (D : List String) :
    (truncateDiff D).length ≤ MAX_DIFF_LINES + 1 ∧
    (MAX_DIFF_LINES < D.length →
      truncateDiff D = D.take (MAX_DIFF_LINES / 2) ++ [truncMarker] ++
        D.drop (D.length - MAX_DIFF_LINES / 2) ∧
      (truncateDiff D).length = MAX_DIFF_LINES + 1 ∧
      ((∀ x ∈ D, x ≠ truncMarker) → (truncateDiff D).count truncMarker = 1)) := by
  unfold truncateDiff
  by_cases h0 : D = []
  · rw [if_pos h0]
    subst h0
    exact ⟨by simp [MAX_DIFF_LINES], by intro h; simp at h⟩
  · rw [if_neg h0]
    by_cases hlen : MAX_DIFF_LINES < D.length
    · rw [if_pos hlen]
      have hlen' : 40 < D.length := hlen
      have htake : (D.take (MAX_DIFF_LINES / 2)).length = 20 := by
        rw [List.length_take]
        simp only [MAX_DIFF_LINES]
        omega
      have hdrop : (D.drop (D.length - MAX_DIFF_LINES / 2)).length = 20 := by
        rw [List.length_drop]
        simp only [MAX_DIFF_LINES]
        omega
      have hlentot : (D.take (MAX_DIFF_LINES / 2) ++ [truncMarker] ++
          D.drop (D.length - MAX_DIFF_LINES / 2)).length = MAX_DIFF_LINES + 1 := by
        simp only [List.length_append, htake, hdrop, List.length_singleton]
        rfl
      refine ⟨by omega, fun _ => ⟨rfl, hlentot, fun hnm => ?_⟩⟩
      have hct : (D.take (MAX_DIFF_LINES / 2)).count truncMarker = 0 :=
        List.count_eq_zero.mpr fun hc => hnm _ (List.mem_of_mem_take hc) rfl
      have hcd : (D.drop (D.length - MAX_DIFF_LINES / 2)).count truncMarker = 0 :=
        List.count_eq_zero.mpr fun hc => hnm _ (List.mem_of_mem_drop hc) rfl
      simp [List.count_append, hct, hcd]
    · rw [if_neg hlen]
      exact ⟨by omega, fun hc => absurd hc hlen⟩

/-- C1 (amended): the message of `make_diff` is the `"\n"`-join of
`makeDiffLines`, which always has at most `MAX_DIFF_LINES + 1 = 41` lines;
when the raw unified diff exceeds the 40-line budget the output is exactly
the first 20 raw lines, one truncation marker line, and the last 20 raw
lines — 41 lines with the marker occurring exactly once.  (The claim's
stated bound of `MAX_DIFF_LINES` itself is off by one: see
`C1_counterexample`.) -/
theorem C1_diff_budget (old_text new_text : String) :
    make_diff old_text new_text =
        String.intercalate "\n" (makeDiffLines old_text new_text) ∧
    (makeDiffLines old_text new_text).length ≤ MAX_DIFF_LINES + 1 ∧
    (MAX_DIFF_LINES < (rawDiffLines old_text new_text).length →
      makeDiffLines old_text new_text =
        (rawDiffLines old_text new_text).take (MAX_DIFF_LINES / 2) ++ [truncMarker] ++
          (rawDiffLines old_text new_text).drop
            ((rawDiffLines old_text new_text).length - MAX_DIFF_LINES / 2) ∧
      (makeDiffLines old_text new_text).length = MAX_DIFF_LINES + 1 ∧
      (makeDiffLines old_text new_text).count truncMarker = 1) := by
  have hs := truncateDiff_spec (rawDiffLines old_text new_text)
  have hnm := unifiedDiff_no_marker (pySplitlines old_text).toArray
    (pySplitlines new_text).toArray
  exact ⟨rfl, hs.1,
    fun hgt => ⟨(hs.2 hgt).1, (hs.2 hgt).2.1, (hs.2 hgt).2.2 hnm⟩⟩

/-- 19 pairwise distinct lines. -/
def c1old : String := "a0\na1\na2\na3\na4\na5\na6\na7\na8\na9\na10\na11\na12\na13\na14\na15\na16\na17\na18"

/-- 20 pairwise distinct lines, sharing none with `c1old`. -/
def c1new : String := "b0\nb1\nb2\nb3\nb4\nb5\nb6\nb7\nb8\nb9\nb10\nb11\nb12\nb13\nb14\nb15\nb16\nb17\nb18\nb19"

/-- C1 (counterexample): the claim bounds the message by `MAX_DIFF_LINES`
(40) lines, but on two texts with 19 and 20 pairwise distinct lines the raw
unified diff has 42 lines and the truncated message has exactly 41. -/
theorem C1_counterexample :
    (rawDiffLines c1old c1new).length = 42 ∧
    (makeDiffLines c1old c1new).length = MAX_DIFF_LINES + 1 ∧
    MAX_DIFF_LINES < (makeDiffLines c1old c1new).length := by
  refine ⟨by decide, by decide, by decide⟩

theorem C1_witness :
    (MAX_DIFF_LINES < (rawDiffLines c1old c1new).length) ∧
    (make_diff c1old c1new =
        String.intercalate "\n" (makeDiffLines c1old c1new) ∧
      (makeDiffLines c1old c1new).length ≤ MAX_DIFF_LINES + 1 ∧
      (makeDiffLines c1old c1new =
        (rawDiffLines c1old c1new).take (MAX_DIFF_LINES / 2) ++ [truncMarker] ++
          (rawDiffLines c1old c1new).drop
            ((rawDiffLines c1old c1new).length - MAX_DIFF_LINES / 2) ∧
      (makeDiffLines c1old c1new).length = MAX_DIFF_LINES + 1 ∧
      (makeDiffLines c1old c1new).count truncMarker = 1)) :=
  ⟨by decide,
    (C1_diff_budget c1old c1new).1,
    (C1_diff_budget c1old c1new).2.1,
    (C1_diff_budget c1old c1new).2.2 (by decide)⟩

/-- C10: the state-file round trip.  The persisted state document —
`json.dump(state, indent=2, ensure_ascii=False)` of the mapping from URLs to
entry objects (`save_json`, lines 37-42) — is read back by `json.load`
(`load_json`, lines 29-34) as exactly the same mapping: every entry field
(hash and text strings, Unicode included, `found` booleans, integer
timestamps) round-trips losslessly. -/
theorem C10_state_roundtrip (st : List (String × Entry)) :
    json_loads (json_dumps (stateJson st)) = some (stateJson st) :=
  json_roundtrip (stateJson st)

end Webwatch
